import Mathlib

/-!
Verification development for the bundle-descriptor translation layer
(`sdks/go/pkg/beam/core/runtime/harness/translate.go`).

The Go program is embedded shallowly:
* Go maps become association lists (`List (key × value)`) read through
  `List.lookup`, or — for the mutable per-call tables `adjs`, `colls` and
  `nodes` — functions `key → value` updated pointwise.  Go map iteration
  order is represented by list order.
* fallible Go code returns `Res`: `.ok` for normal results, `.fail` for
  `error` return values, `.crash` for `panic` / nil-pointer dereference.
* the three nested loops of the sorter's drain step are flattened into a
  single left fold over the list of matching `(producer, consumer,
  collection)` events, produced in exactly the nesting order of the
  source loops.
-/

namespace Beam

abbrev TId := String
abbrev CId := String

/-- Element type carried by a coder (`graph.Coder.T`). -/
abbrev Ty := String

/-- Executable user-function descriptor (opaque to this layer). -/
abbrev Fn := String

/-- `graph.Opcode` values relevant to translation. -/
inductive Opcode where
  | parDo
  | combine
  | dataSource
  | dataSink
  | flatten
  | external
  deriving DecidableEq

/-- Window strategy (`window` package): the global default or some other
windowing, which this layer propagates but never inspects. -/
inductive Windowing where
  | global
  | fixed (n : Nat)
  deriving DecidableEq

/-- Decoded content of a transform's opaque payload blob.  The decoders
(`graphx.DecodeMultiEdge`, `proto.Unmarshal` into `RemoteGrpcPort`) live
outside this file's source, so the payload is embedded already structured:
a function payload (operation code, executable, input/output shape), a
remote-port payload (service URL), or an undecodable blob. -/
inductive Payload where
  | fnPayload (op : Opcode) (fn : Fn) (ins outs : List Ty)
  | portPayload (url : String)
  | blob (n : Nat)
  deriving DecidableEq

/-- `FunctionSpec`: kind tag (urn) plus opaque payload. -/
structure FunctionSpec where
  urn : String
  payload : Payload
  deriving DecidableEq

/-- `PTransform`: spec plus named inputs and outputs (local name ↦
collection id).  Go stores these as maps; list order stands for the
unspecified map iteration order. -/
structure PTransform where
  spec : FunctionSpec
  inputs : List (String × CId) := []
  outputs : List (String × CId) := []
  deriving DecidableEq

/-- Wire metadata of one PCollection. -/
structure PColl where
  coderId : String
  deriving DecidableEq

/-- Decoded coder: element type (`Coder.T` is all this layer reads). -/
structure Coder where
  T : Ty
  deriving DecidableEq

/-- `ProcessBundleDescriptor`: transforms, pcollections and the coder
table.  The coder table is embedded already decoded, standing for the
`graphx.NewCoderUnmarshaller` registry. -/
structure BundleDescriptor where
  transforms : List (TId × PTransform) := []
  pcollections : List (CId × PColl) := []
  coders : List (String × Coder) := []

/-- `pCollInfo`: provenance record of one collection.  Go zero values:
`xid = ""`, `xform = nil`. -/
structure PCollInfo where
  xid : TId := ""
  xform : Option PTransform := none
  pcoll : PColl
  deriving DecidableEq

/-- Error values returned by translation (`errors.New` / `fmt.Errorf`
sites), carrying exactly the data the Go error message formats. -/
inductive TErr where
  | rootlessBundle
  | bundleHasCycle
  | decodeMultiEdgeErr
  | decodePortErr
  | expectedOneOutput (got : Nat)
  | expectedOneInput (got : Nat)
  | unexpectedInputCount (got want : Nat)
  | unexpectedOutputCount (got want : Nat)
  | coderNotFound (id : String)
  | unknownOpcode (spec : FunctionSpec)
  deriving DecidableEq

/-- Abnormal aborts: nil-pointer dereference, the explicit opcode `panic`,
and exhaustion of the recursion bound of the embedded sort loop (shown
unreachable below). -/
inductive Crash where
  | nilDeref
  | opcodePanic (op : Opcode)
  | outOfFuel
  deriving DecidableEq

/-- Result of a fallible step: ordinary value, Go `error` return, or
Go `panic`. -/
inductive Res (α : Type) where
  | ok (a : α)
  | fail (e : TErr)
  | crash (c : Crash)
  deriving DecidableEq

instance : Monad Res where
  pure := .ok
  bind x f :=
    match x with
    | .ok a => f a
    | .fail e => .fail e
    | .crash c => .crash c

@[simp] theorem Res.bind_ok {α β : Type} (a : α) (f : α → Res β) :
    (Res.ok a >>= f) = f a := rfl

@[simp] theorem Res.bind_fail {α β : Type} (e : TErr) (f : α → Res β) :
    (Res.fail e >>= f) = Res.fail e := rfl

@[simp] theorem Res.bind_crash {α β : Type} (c : Crash) (f : α → Res β) :
    (Res.crash c >>= f) = Res.crash c := rfl

@[simp] theorem Res.pure_eq_ok {α : Type} (a : α) :
    (pure a : Res α) = Res.ok a := rfl

/-- Values of a transform's input map (`for _, in := range GetInputs()`). -/
def inVals (t : PTransform) : List CId := t.inputs.map Prod.snd

/-- Values of a transform's output map (`for _, out := range GetOutputs()`). -/
def outVals (t : PTransform) : List CId := t.outputs.map Prod.snd

/-- Nil-safe `GetOutputs().values` on a possibly missing transform. -/
def outValsOpt (t : Option PTransform) : List CId :=
  match t with
  | none => []
  | some t => outVals t

/-- Nil-safe `GetOutputs()` on a possibly missing transform. -/
def outputsOpt (t : Option PTransform) : List (String × CId) :=
  match t with
  | none => []
  | some t => t.outputs

/-! ### The topological sorter -/

/-- Mutable state of `topologicalSort`: the pending-input counts `adjs`,
the provenance map `colls`, and the list of consumers admitted to the
next frontier during the current round. -/
structure SortSt where
  adjs : TId → Int
  colls : CId → Option PCollInfo
  nextFrontier : List TId

/-- One matching `(in == out)` event while draining producer `e.1`:
decrement consumer `e.2.1`'s pending count, record provenance for
collection `e.2.2` (nil-pointer panic when the collection is absent from
the descriptor's PCollections map), and admit the consumer when its count
reaches zero. -/
def applyEvent (xforms : List (TId × PTransform)) (st : SortSt)
    (e : TId × TId × CId) : Res SortSt :=
  let a := st.adjs e.2.1 - 1
  match st.colls e.2.2 with
  | none => .crash .nilDeref
  | some info =>
      .ok { adjs := fun x => if x = e.2.1 then a else st.adjs x
            colls := fun c =>
              if c = e.2.2 then
                some { info with xid := e.1, xform := List.lookup e.1 xforms }
              else st.colls c
            nextFrontier :=
              st.nextFrontier ++ (if a = 0 then [e.2.1] else []) }

/-- The matching events generated by draining transform `id`, in the
nesting order of the source loops: for each output collection of `id`,
for each transform, for each of its input slots equal to that output. -/
def drainEvents (xforms : List (TId × PTransform)) (id : TId) :
    List (TId × TId × CId) :=
  (outValsOpt (List.lookup id xforms)).flatMap fun out =>
    xforms.flatMap fun ct =>
      (inVals ct.2).filterMap fun i =>
        if i = out then some (id, ct.1, out) else none

/-- Drain one transform from the frontier. -/
def drainOne (xforms : List (TId × PTransform)) (st : SortSt) (id : TId) :
    Res SortSt :=
  (drainEvents xforms id).foldlM (applyEvent xforms) st

/-- Drain every transform of the current frontier, collecting the newly
admitted consumers in `nextFrontier`. -/
def processRound (xforms : List (TId × PTransform)) (frontier : List TId)
    (st : SortSt) : Res SortSt :=
  frontier.foldlM (drainOne xforms) { st with nextFrontier := [] }

/-- The outer `for {}` loop of `topologicalSort`: repeatedly drain the
frontier, appending each round's admissions to the sorted sequence, until
a round admits nothing.  The Go loop is unbounded; the embedding carries
a recursion bound that is proven never to expire for the bound passed by
`topologicalSort`. -/
def sortLoop (xforms : List (TId × PTransform)) :
    Nat → List TId → SortSt → Res (List TId × (CId → Option PCollInfo))
  | 0, _, _ => .crash .outOfFuel
  | fuel + 1, frontier, st =>
      match processRound xforms frontier st with
      | .fail e => .fail e
      | .crash c => .crash c
      | .ok st' =>
          if st'.nextFrontier = [] then .ok (frontier, st'.colls)
          else
            match sortLoop xforms fuel st'.nextFrontier st' with
            | .ok (rest, colls) => .ok (frontier ++ rest, colls)
            | r => r

/-- Initial provenance map: one empty record per declared PCollection. -/
def initColls (b : BundleDescriptor) : CId → Option PCollInfo :=
  fun c => (List.lookup c b.pcollections).map fun p => { pcoll := p }

/-- Initial pending-input counts: each transform's declared input-slot
count (Go map reads of absent keys give zero). -/
def initAdjs (b : BundleDescriptor) : TId → Int :=
  fun t =>
    match List.lookup t b.transforms with
    | some tr => (tr.inputs.length : Int)
    | none => 0

/-- The root transforms: those declaring no inputs. -/
def rootIds (b : BundleDescriptor) : List TId :=
  (b.transforms.filter fun e => e.2.inputs.length = 0).map Prod.fst

/-- `topologicalSort`: fails with `rootlessBundle` on a descriptor with no
transforms; otherwise drains level by level and fails with
`bundleHasCycle` when the drained sequence does not cover every
transform. -/
def topologicalSort (b : BundleDescriptor) :
    Res (List TId × (CId → Option PCollInfo)) :=
  if b.transforms.length = 0 then .fail .rootlessBundle
  else
    match sortLoop b.transforms (b.transforms.length + 1) (rootIds b)
        { adjs := initAdjs b, colls := initColls b, nextFrontier := [] } with
    | .ok (sortedIds, colls) =>
        if sortedIds.length = b.transforms.length then .ok (sortedIds, colls)
        else .fail .bundleHasCycle
    | r => r

/-! ### The graph builder -/

/-- `nodeID`: key of the shared node map (producing step id + local
output name). -/
structure nodeID where
  StepID : String
  Key : String
  deriving DecidableEq

/-- `graph.Target`: remote endpoint binding (transform id + local name). -/
structure Target where
  ID : TId
  Name : String
  deriving DecidableEq

/-- `graph.Node`: one data endpoint, holding element type, window
strategy and coder. -/
structure Node where
  id : Nat
  typ : Ty
  window : Windowing
  coder : Coder
  deriving DecidableEq

/-- `graph.Inbound`: one input binding of an edge. -/
structure Inbound where
  typ : Option Ty := none
  From : Option Node := none
  deriving DecidableEq

/-- `graph.Outbound`: one output binding of an edge. -/
structure Outbound where
  typ : Option Ty := none
  To : Option Node := none
  deriving DecidableEq

/-- `graph.MultiEdge`: internal representation of one transform. -/
structure MultiEdge where
  op : Opcode
  dofn : Option Fn := none
  combineFn : Option Fn := none
  port : Option String := none
  target : Option Target := none
  input : List Inbound := []
  output : List Outbound := []
  deriving DecidableEq

/-- `graph.Graph`: the execution graph under construction.  `NewNode`
allocates ids from `nextNodeId`; edges are attached to the root sentinel,
which needs no representation of its own. -/
structure Graph where
  nextNodeId : Nat := 0
  nodes : List Node := []
  edges : List MultiEdge := []
  deriving DecidableEq

/-- `g.NewNode(t, w)` followed by setting the node's coder (the Go code
creates the node, then assigns `n.Coder = c` before it is read). -/
def Graph.newNode (g : Graph) (t : Ty) (w : Windowing) (c : Coder) :
    Graph × Node :=
  let n : Node := { id := g.nextNodeId, typ := t, window := w, coder := c }
  ({ g with nextNodeId := g.nextNodeId + 1, nodes := g.nodes ++ [n] }, n)

/-- The shared node map `nodes`, keyed by `nodeID`; absent keys read as
Go `nil`. -/
abbrev NodeMap := nodeID → Option Node

/-- Modelled from the spec: the function-payload decoder
(`graphx.DecodeMultiEdge`, outside this file's source) returns the
operation code, the executable descriptor and the declared input/output
shapes, or a decode error. -/
def decodeMultiEdge (p : Payload) :
    Res (Opcode × Fn × List Inbound × List Outbound) :=
  match p with
  | .fnPayload op fn ins outs =>
      .ok (op, fn, ins.map (fun t => { typ := some t }),
           outs.map fun t => { typ := some t })
  | _ => .fail .decodeMultiEdgeErr

/-- Modelled from the spec: `graph.AsDoFn` adapts the decoded executable
to a DoFn; its failure conditions are internal to the graph package and
not exercised by any claim, so it is embedded as total. -/
def asDoFn (f : Fn) : Res Fn := .ok f

/-- Modelled from the spec: `graph.AsCombineFn`, embedded as total like
`asDoFn`. -/
def asCombineFn (f : Fn) : Res Fn := .ok f

/-- `translatePort`: decode a remote-endpoint payload into its service
URL, or fail. -/
def translatePort (p : Payload) : Res String :=
  match p with
  | .portPayload url => .ok url
  | _ => .fail .decodePortErr

/-- Modelled from the spec: the coder registry
(`graphx.CoderUnmarshaller.Coder`) resolves a coder id or reports it
missing. -/
def coderLookup (coders : List (String × Coder)) (id : String) : Res Coder :=
  match List.lookup id coders with
  | some c => .ok c
  | none => .fail (.coderNotFound id)

/-- `translateInputs`: for each declared input collection, consult the
provenance map (nil-pointer panic when the collection is absent) and
collect one node key per output slot of the producer wired to that
collection. -/
def translateInputs (transform : PTransform)
    (colls : CId → Option PCollInfo) : Res (List nodeID) :=
  transform.inputs.foldlM
    (fun acc nin =>
      match colls nin.2 with
      | none => .crash .nilDeref
      | some info =>
          .ok (acc ++ (outputsOpt info.xform).filterMap fun oc =>
            if oc.2 = nin.2 then some ⟨info.xid, oc.1⟩ else none))
    []

/-- One resolved output binding: node key plus referenced coder id
(the Go local struct `output`). -/
structure outputB where
  NodeID : nodeID
  Coder : String
  deriving DecidableEq

/-- `translateOutputs`: iterate the declared outputs in map-iteration
order, skip the reserved name "bogus", and look up each remaining
collection's coder id (nil-pointer panic when the collection is absent). -/
def translateOutputs (transform : PTransform) (tid : TId)
    (colls : CId → Option PCollInfo) : Res (List outputB) :=
  transform.outputs.foldlM
    (fun acc kc =>
      if kc.1 = "bogus" then .ok acc
      else
        match colls kc.2 with
        | none => .crash .nilDeref
        | some info => .ok (acc ++ [⟨⟨tid, kc.1⟩, info.pcoll.coderId⟩]))
    []

/-- `linkInbound`: resolve the declared inputs and attach them to the
edge's input slots; the resolved count must equal the edge's declared
input arity. -/
def linkInbound (nodes : NodeMap) (transform : PTransform)
    (edge : MultiEdge) (colls : CId → Option PCollInfo) : Res MultiEdge := do
  let resolved ← translateInputs transform colls
  if resolved.length = edge.input.length then
    .ok { edge with
          input := (edge.input.zip resolved).map fun p =>
            { p.1 with From := nodes p.2 } }
  else .fail (.unexpectedInputCount resolved.length edge.input.length)

/-- The output-creation loop of `linkOutbound`: for each resolved output
binding, resolve its coder, create a node carrying the edge's window
strategy, and register it in the node map. -/
def linkOutLoop (coders : List (String × Coder)) (w : Windowing) :
    Graph → NodeMap → List (outputB × Outbound) →
    Res (Graph × NodeMap × List Outbound)
  | g, nodes, [] => .ok (g, nodes, [])
  | g, nodes, (t, ob) :: rest => do
      let c ← coderLookup coders t.Coder
      let (g', n) := g.newNode c.T w c
      let nodes' : NodeMap := fun k => if k = t.NodeID then some n else nodes k
      let (g'', nodes'', obs) ← linkOutLoop coders w g' nodes' rest
      .ok (g'', nodes'', { ob with To := some n } :: obs)

/-- `linkOutbound`: resolve the declared outputs, check arity, compute
the window strategy (global for an edge with no inputs, otherwise the
window of the first input's `From` node — nil-pointer panic when that
node is absent), then create and attach the output nodes. -/
def linkOutbound (g : Graph) (nodes : NodeMap)
    (coders : List (String × Coder)) (transform : PTransform) (tid : TId)
    (edge : MultiEdge) (colls : CId → Option PCollInfo) :
    Res (Graph × NodeMap × MultiEdge) := do
  let resolved ← translateOutputs transform tid colls
  if resolved.length = edge.output.length then do
    let w ← match edge.input with
      | [] => pure Windowing.global
      | ib :: _ =>
          match ib.From with
          | none => Res.crash .nilDeref
          | some n => pure n.window
    let (g', nodes', obs) ←
      linkOutLoop coders w g nodes (resolved.zip edge.output)
    .ok (g', nodes', { edge with output := obs })
  else .fail (.unexpectedOutputCount resolved.length edge.output.length)

/-- `link`: inbound then outbound resolution for one edge. -/
def link (g : Graph) (nodes : NodeMap) (coders : List (String × Coder))
    (transform : PTransform) (tid : TId) (edge : MultiEdge)
    (colls : CId → Option PCollInfo) : Res (Graph × NodeMap × MultiEdge) := do
  let edge' ← linkInbound nodes transform edge colls
  linkOutbound g nodes coders transform tid edge' colls

/-- Urn of the first legacy single-function variant. -/
abbrev urnJavaSource : String := "urn:org.apache.beam:source:java:0.1"

/-- Urn of the second legacy single-function variant. -/
abbrev urnJavaDoFn : String := "urn:beam:dofn:javasdk:0.1"

/-- Urn of the remote-source endpoint kind. -/
abbrev urnRunnerSource : String := "urn:org.apache.beam:source:runner:0.1"

/-- Urn of the remote-sink endpoint kind. -/
abbrev urnRunnerSink : String := "urn:org.apache.beam:sink:runner:0.1"

/-- Last-wins iteration of `for key := range m { target = ... }`. -/
def lastTarget (tid : TId) (m : List (String × CId)) : Option Target :=
  m.foldl (fun _ kc => some ⟨tid, kc.1⟩) none

/-- Resolve one legacy edge's bindings via `link` and append it to the
graph (the shared tail of the two legacy dispatch arms). -/
def legacyLink (coders : List (String × Coder))
    (colls : CId → Option PCollInfo) (st : Graph × NodeMap) (id : TId)
    (transform : PTransform) (edge : MultiEdge) : Res (Graph × NodeMap) := do
  let (g', nodes', edge') ← link st.1 st.2 coders transform id edge colls
  .ok ({ g' with edges := g'.edges ++ [edge'] }, nodes')

/-- One arm of the dispatch switch of `translate`: process a single
transform against the shared graph and node map. -/
def translateOne (coders : List (String × Coder))
    (colls : CId → Option PCollInfo) (st : Graph × NodeMap) (id : TId)
    (transform : PTransform) : Res (Graph × NodeMap) :=
  let spec := transform.spec
  if spec.urn = urnJavaSource then do
    let (op, fn, ins, outs) ← decodeMultiEdge spec.payload
    let d ← asDoFn fn
    legacyLink coders colls st id transform
      { op := op, dofn := some d, input := ins, output := outs }
  else if spec.urn = urnJavaDoFn then do
    let (op, fn, ins, outs) ← decodeMultiEdge spec.payload
    let edge0 : MultiEdge := { op := op, input := ins, output := outs }
    let edge1 ← match op with
      | .parDo => do
          let d ← asDoFn fn
          pure { edge0 with dofn := some d }
      | .combine => do
          let c ← asCombineFn fn
          pure { edge0 with combineFn := some c }
      | _ => Res.crash (.opcodePanic op)
    legacyLink coders colls st id transform edge1
  else if spec.urn = urnRunnerSource then do
    let url ← translatePort spec.payload
    if transform.outputs.length = 1 then do
      let edge : MultiEdge :=
        { op := .dataSource, port := some url,
          target := lastTarget id transform.outputs, output := [{}] }
      let (g', nodes', edge') ←
        linkOutbound st.1 st.2 coders transform id edge colls
      match edge'.output with
      | [ob] =>
          match ob.To with
          | some n =>
              .ok ({ g' with edges := g'.edges ++
                      [{ edge' with output := [{ ob with typ := some n.coder.T }] }] },
                   nodes')
          | none => .crash .nilDeref
      | _ => .crash .nilDeref
    else .fail (.expectedOneOutput transform.outputs.length)
  else if spec.urn = urnRunnerSink then do
    let url ← translatePort spec.payload
    if transform.inputs.length = 1 then do
      let edge : MultiEdge :=
        { op := .dataSink, port := some url,
          target := lastTarget id transform.inputs, input := [{}] }
      let edge' ← linkInbound st.2 transform edge colls
      match edge'.input with
      | [ib] =>
          match ib.From with
          | some n =>
              .ok ({ st.1 with edges := st.1.edges ++
                      [{ edge' with input := [{ ib with typ := some n.coder.T }] }] },
                   st.2)
          | none => .crash .nilDeref
      | _ => .crash .nilDeref
    else .fail (.expectedOneInput transform.inputs.length)
  else .fail (.unknownOpcode spec)

/-- Nil-safe read of `xforms[id]`: a missing transform behaves as the
zero proto value (empty urn, empty maps). -/
def lookupTransform (xforms : List (TId × PTransform)) (id : TId) :
    PTransform :=
  (List.lookup id xforms).getD { spec := { urn := "", payload := .blob 0 } }

/-- `translate`: topologically sort the descriptor, then dispatch each
transform in order, threading the graph and shared node map. -/
def translate (b : BundleDescriptor) : Res Graph :=
  match topologicalSort b with
  | .fail e => .fail e
  | .crash c => .crash c
  | .ok (sortedIds, colls) =>
      match sortedIds.foldlM
          (fun st id =>
            translateOne b.coders colls st id (lookupTransform b.transforms id))
          (({} : Graph), (fun _ => none : NodeMap)) with
      | .ok (g, _) => .ok g
      | .fail e => .fail e
      | .crash c => .crash c

/-! ### Derived relations of the dependency graph -/

/-- Transform `p` produces collection `c` through some output slot. -/
def producesTo (xforms : List (TId × PTransform)) (p : TId) (c : CId) : Prop :=
  ∃ tp, List.lookup p xforms = some tp ∧ c ∈ outVals tp

/-- Transform `k` consumes collection `c` through some input slot. -/
def consumesFrom (xforms : List (TId × PTransform)) (k : TId) (c : CId) : Prop :=
  ∃ tk, List.lookup k xforms = some tk ∧ c ∈ inVals tk

/-- `k` depends on `p`: some collection produced by `p` is an input of
`k`. -/
def depends (xforms : List (TId × PTransform)) (p k : TId) : Prop :=
  ∃ c, producesTo xforms p c ∧ consumesFrom xforms k c

/-- The transform dependency graph has no (nonempty) cycle. -/
def Acyclic (xforms : List (TId × PTransform)) : Prop :=
  ∀ x, ¬ Relation.TransGen (depends xforms) x x

/-- Number of `(output slot of tp, input slot of tk)` matching pairs:
exactly the number of decrements the drain of `tp` sends to `tk`. -/
def decCount (tp tk : PTransform) : Nat :=
  ((outVals tp).map fun o => (inVals tk).count o).sum

/-- `decCount` lifted to transform ids. -/
def decFromI (xforms : List (TId × PTransform)) (p k : TId) : Nat :=
  match List.lookup p xforms, List.lookup k xforms with
  | some tp, some tk => decCount tp tk
  | _, _ => 0

/-- Total number of output slots, over all transforms, wired to
collection `c`. -/
def prodSlots (xforms : List (TId × PTransform)) (c : CId) : Nat :=
  (xforms.map fun e => (outVals e.2).count c).sum

/-- Well-formedness of a descriptor, as the data model specifies it:
transform ids are unique (they key a Go map), every consumed collection
is registered in the PCollections map, and every consumed collection is
produced by exactly one output slot of exactly one transform. -/
structure SortWF (b : BundleDescriptor) : Prop where
  nodupKeys : (b.transforms.map Prod.fst).Nodup
  registered : ∀ e ∈ b.transforms, ∀ c ∈ inVals e.2,
    (List.lookup c b.pcollections).isSome = true
  uniqueProducer : ∀ e ∈ b.transforms, ∀ c ∈ inVals e.2,
    prodSlots b.transforms c = 1

instance : LawfulMonad Res :=
  LawfulMonad.mk' Res
    (by intro α x; cases x <;> rfl)
    (by intro α β x f; rfl)
    (by intro α β γ x f g; cases x <;> rfl)

/-! ### Event-list characterization of a drain round -/

/-- Number of events of `E` addressed to consumer `k`. -/
def cntE (E : List (TId × TId × CId)) (k : TId) : Nat :=
  E.countP fun e => e.2.1 = k

@[simp] theorem cntE_nil (k : TId) : cntE [] k = 0 := rfl

theorem cntE_cons (e : TId × TId × CId) (E : List (TId × TId × CId)) (k : TId) :
    cntE (e :: E) k = cntE E k + (if e.2.1 = k then 1 else 0) := by
  simp [cntE, List.countP_cons]

theorem cntE_append (E F : List (TId × TId × CId)) (k : TId) :
    cntE (E ++ F) k = cntE E k + cntE F k := by
  simp [cntE, List.countP_append]

/-- Running a list of matching events: pending counts drop by the number
of events addressed to each consumer; a consumer is admitted (exactly
once) iff its count passes through zero, i.e. iff its starting count is
positive and at most its event count; the domain of the provenance map
is unchanged. -/
theorem evrun_spec (xforms : List (TId × PTransform))
    (E : List (TId × TId × CId)) :
    ∀ st st', E.foldlM (applyEvent xforms) st = .ok st' →
      (∀ k, st'.adjs k = st.adjs k - (cntE E k : Int))
      ∧ (∃ A, st'.nextFrontier = st.nextFrontier ++ A ∧ A.Nodup
            ∧ ∀ k, (k ∈ A ↔ 1 ≤ st.adjs k ∧ st.adjs k ≤ (cntE E k : Int)))
      ∧ (∀ c, (st'.colls c).isSome = (st.colls c).isSome) := by
  induction E with
  | nil =>
      intro st st' h
      simp only [List.foldlM_nil, Res.pure_eq_ok, Res.ok.injEq] at h
      subst h
      refine ⟨fun k => by simp, ⟨[], by simp, List.nodup_nil, fun k => ?_⟩,
        fun c => rfl⟩
      simp only [List.not_mem_nil, false_iff, cntE_nil, Nat.cast_zero]
      omega
  | cons e E ih =>
      obtain ⟨w, cid, c0⟩ := e
      intro st st' h
      rw [List.foldlM_cons] at h
      rcases hc : st.colls c0 with _ | info
      · simp [applyEvent, hc] at h
      · simp only [applyEvent, hc, Res.bind_ok] at h
        obtain ⟨hadj, ⟨A', hA'eq, hA'nd, hA'mem⟩, hcolls⟩ := ih _ st' h
        simp only at hadj hA'mem hcolls hA'eq
        refine ⟨?_, ?_, ?_⟩
        · intro k
          have hk1 := hadj k
          rw [cntE_cons]
          by_cases hk : k = cid
          · rw [if_pos hk] at hk1
            rw [hk1, if_pos hk.symm, hk]
            push_cast; omega
          · rw [if_neg hk] at hk1
            rw [hk1, if_neg (Ne.symm hk)]
            push_cast; omega
        · refine ⟨(if st.adjs cid - 1 = 0 then [cid] else []) ++ A', ?_, ?_, ?_⟩
          · rw [hA'eq]; simp [List.append_assoc]
          · have hnotin : st.adjs cid - 1 = 0 → cid ∉ A' := by
              intro h0 hmem
              have hx := (hA'mem cid).1 hmem
              rw [if_pos rfl] at hx
              omega
            by_cases h0 : st.adjs cid - 1 = 0
            · simp only [if_pos h0, List.singleton_append, List.nodup_cons]
              exact ⟨hnotin h0, hA'nd⟩
            · simpa [if_neg h0] using hA'nd
          · intro k
            rw [cntE_cons]
            have hmem := hA'mem k
            simp only [List.mem_append]
            by_cases hk : k = cid
            · rw [if_pos hk] at hmem
              rw [if_pos hk.symm, hk]
              rw [hk] at hmem
              by_cases h0 : st.adjs cid - 1 = 0
              · rw [if_pos h0]
                simp only [List.mem_singleton, eq_self_iff_true, true_or,
                  true_iff]
                push_cast; omega
              · rw [if_neg h0]
                simp only [List.not_mem_nil, false_or]
                rw [hmem]
                push_cast; omega
            · rw [if_neg hk] at hmem
              rw [if_neg (Ne.symm hk)]
              by_cases h0 : st.adjs cid - 1 = 0
              · rw [if_pos h0]
                simp only [List.mem_singleton]
                rw [hmem]
                push_cast
                constructor
                · rintro (hh | hh)
                  · exact absurd hh hk
                  · omega
                · intro hh; right; omega
              · rw [if_neg h0]
                simp only [List.not_mem_nil, false_or]
                rw [hmem]; push_cast; omega
        · intro c
          rw [hcolls c]
          by_cases hcc : c = c0
          · rw [if_pos hcc, hcc, hc]; rfl
          · rw [if_neg hcc]

/-- If some event refers to a collection absent from the provenance map,
the event run dereferences nil and crashes. -/
theorem evrun_crash (xforms : List (TId × PTransform))
    (E : List (TId × TId × CId)) :
    ∀ st, (∃ e ∈ E, st.colls e.2.2 = none) →
      E.foldlM (applyEvent xforms) st = .crash .nilDeref := by
  induction E with
  | nil => intro st h; simp at h
  | cons e E ih =>
      intro st h
      rw [List.foldlM_cons]
      rcases hc : st.colls e.2.2 with _ | info
      · simp [applyEvent, hc]
      · simp only [applyEvent, hc, Res.bind_ok]
        obtain ⟨e', he', hnone⟩ := h
        rcases List.mem_cons.1 he' with rfl | hmem
        · rw [hc] at hnone; cases hnone
        · refine ih _ ⟨e', hmem, ?_⟩
          simp only
          by_cases hcc : e'.2.2 = e.2.2
          · rw [hcc, hc] at hnone; cases hnone
          · rw [if_neg hcc]; exact hnone

/-- If every event's collection is present, the event run succeeds. -/
theorem evrun_ok (xforms : List (TId × PTransform))
    (E : List (TId × TId × CId)) :
    ∀ st, (∀ e ∈ E, (st.colls e.2.2).isSome = true) →
      ∃ st', E.foldlM (applyEvent xforms) st = .ok st' := by
  induction E with
  | nil => intro st _; exact ⟨st, by simp⟩
  | cons e E ih =>
      intro st h
      rw [List.foldlM_cons]
      rcases hc : st.colls e.2.2 with _ | info
      · have := h e (List.mem_cons_self e E)
        rw [hc] at this; cases this
      · simp only [applyEvent, hc, Res.bind_ok]
        refine ih _ fun e' he' => ?_
        simp only
        by_cases hcc : e'.2.2 = e.2.2
        · rw [if_pos hcc]; rfl
        · rw [if_neg hcc]; exact h e' (List.mem_cons_of_mem e he')

/-- Fold of a flattened list as a nested fold. -/
theorem foldlM_flatMap {α β γ : Type} (g : β → List α) (f : γ → α → Res γ)
    (l : List β) :
    ∀ init : γ,
      (l.flatMap g).foldlM f init =
        l.foldlM (fun s x => (g x).foldlM f s) init := by
  induction l with
  | nil => intro init; simp
  | cons x l ih =>
      intro init
      rw [List.flatMap_cons, List.foldlM_append, List.foldlM_cons]
      cases hx : (g x).foldlM f init with
      | ok s => simp only [Res.bind_ok]; exact ih s
      | fail e => simp only [Res.bind_fail]
      | crash c => simp only [Res.bind_crash]

/-- The whole events of one round. -/
def roundEvents (xforms : List (TId × PTransform)) (frontier : List TId) :
    List (TId × TId × CId) :=
  frontier.flatMap (drainEvents xforms)

/-- A round is exactly the run of its flattened event list (starting from
an emptied admission list). -/
theorem processRound_eq_evrun (xforms : List (TId × PTransform))
    (frontier : List TId) (st : SortSt) :
    processRound xforms frontier st =
      (roundEvents xforms frontier).foldlM (applyEvent xforms)
        { st with nextFrontier := [] } := by
  rw [processRound, roundEvents, foldlM_flatMap]
  rfl

theorem lookup_cons_str {β : Type} (k a : String) (v : β)
    (l : List (String × β)) :
    List.lookup k ((a, v) :: l) = if k = a then some v else List.lookup k l := by
  by_cases h : k = a
  · simp [List.lookup_cons, h]
  · have hb : (k == a) = false := beq_false_of_ne h
    simp [List.lookup_cons, hb, h]

theorem lookup_eq_none_of_not_mem {β : Type} (k : String) :
    ∀ l : List (String × β), k ∉ l.map Prod.fst → List.lookup k l = none := by
  intro l
  induction l with
  | nil => intro _; rfl
  | cons a rest ih =>
      intro h
      obtain ⟨aid, av⟩ := a
      simp only [List.map_cons, List.mem_cons, not_or] at h
      rw [lookup_cons_str, if_neg h.1]
      exact ih h.2

theorem sum_ite_key_zero (f : PTransform → Nat) (k : TId) :
    ∀ xforms : List (TId × PTransform), k ∉ xforms.map Prod.fst →
      ((xforms.map fun ct => if ct.1 = k then f ct.2 else 0).sum = 0) := by
  intro xforms
  induction xforms with
  | nil => intro _; rfl
  | cons a rest ih =>
      intro h
      simp only [List.map_cons, List.mem_cons, not_or] at h
      simp only [List.map_cons, List.sum_cons]
      rw [if_neg (fun hh => h.1 hh.symm), ih h.2]

theorem sum_ite_key (f : PTransform → Nat) (k : TId) :
    ∀ xforms : List (TId × PTransform), (xforms.map Prod.fst).Nodup →
      ((xforms.map fun ct => if ct.1 = k then f ct.2 else 0).sum =
        match List.lookup k xforms with
        | some t => f t
        | none => 0) := by
  intro xforms
  induction xforms with
  | nil => intro _; rfl
  | cons a rest ih =>
      intro hnd
      obtain ⟨aid, av⟩ := a
      simp only [List.map_cons, List.nodup_cons] at hnd
      simp only [List.map_cons, List.sum_cons]
      rw [lookup_cons_str]
      by_cases hk : aid = k
      · rw [if_pos hk, if_pos hk.symm]
        rw [hk] at hnd
        rw [sum_ite_key_zero f k rest hnd.1]
        simp
      · rw [if_neg hk, if_neg (fun hh => hk hh.symm), Nat.zero_add]
        exact ih hnd.2

theorem cntE_filterMap_match (w cid : TId) (out : CId) (k : TId) :
    ∀ l : List CId,
      cntE (l.filterMap fun i =>
        if i = out then some (w, cid, out) else none) k =
        if cid = k then l.count out else 0 := by
  intro l
  induction l with
  | nil => simp [cntE]
  | cons i l ih =>
      rw [List.filterMap_cons]
      by_cases hio : i = out
      · rw [if_pos hio, cntE_cons, ih]
        simp only
        by_cases hck : cid = k
        · simp [hck, List.count_cons, hio]
        · simp [hck, List.count_cons, hio]
      · rw [if_neg hio, ih]
        have hb : (i == out) = false := beq_false_of_ne hio
        simp [List.count_cons, hb]

theorem cntE_flatMap {β : Type} (g : β → List (TId × TId × CId)) (k : TId) :
    ∀ l : List β,
      cntE (l.flatMap g) k = (l.map fun x => cntE (g x) k).sum := by
  intro l
  induction l with
  | nil => simp [cntE]
  | cons x l ih =>
      rw [List.flatMap_cons, cntE_append, ih, List.map_cons, List.sum_cons]

/-- With unique transform ids, the events of one drain send to consumer
`k` exactly `decFromI` decrements. -/
theorem cntE_drainEvents (xforms : List (TId × PTransform))
    (hnd : (xforms.map Prod.fst).Nodup) (p k : TId) :
    cntE (drainEvents xforms p) k = decFromI xforms p k := by
  rw [drainEvents, cntE_flatMap]
  have hinner : ∀ out : CId,
      cntE (xforms.flatMap fun ct =>
        (inVals ct.2).filterMap fun i =>
          if i = out then some (p, ct.1, out) else none) k =
        (match List.lookup k xforms with
         | some tk => (inVals tk).count out
         | none => 0) := by
    intro out
    rw [cntE_flatMap]
    have : (xforms.map fun ct =>
        cntE ((inVals ct.2).filterMap fun i =>
          if i = out then some (p, ct.1, out) else none) k) =
        xforms.map fun ct => if ct.1 = k then (inVals ct.2).count out else 0 := by
      refine List.map_congr_left fun ct _ => ?_
      exact cntE_filterMap_match p ct.1 out k (inVals ct.2)
    rw [this, sum_ite_key (fun t => (inVals t).count out) k xforms hnd]
  rw [List.map_congr_left fun out _ => hinner out]
  rcases hp : List.lookup p xforms with _ | tp
  · simp [outValsOpt, decFromI, hp]
  · rcases hk : List.lookup k xforms with _ | tk
    · simp only [outValsOpt, decFromI, hp, hk]
      induction outVals tp with
      | nil => rfl
      | cons o os iho => simp
    · simp only [outValsOpt, decFromI, hp, hk, decCount]

/-- Per-frontier total of `decFromI` sent to consumer `k`. -/
def sumDec (xforms : List (TId × PTransform)) (l : List TId) (k : TId) : Nat :=
  (l.map fun p => decFromI xforms p k).sum

theorem cntE_roundEvents (xforms : List (TId × PTransform))
    (hnd : (xforms.map Prod.fst).Nodup) (frontier : List TId) (k : TId) :
    cntE (roundEvents xforms frontier) k = sumDec xforms frontier k := by
  rw [roundEvents, cntE_flatMap, sumDec]
  rw [List.map_congr_left fun p _ => cntE_drainEvents xforms hnd p k]

theorem mem_keys_of_lookup_isSome {β : Type} {k : String}
    {l : List (String × β)} (h : (List.lookup k l).isSome = true) :
    k ∈ l.map Prod.fst := by
  by_contra h'
  rw [lookup_eq_none_of_not_mem k l h'] at h
  cases h

theorem lookup_entry_of_mem {β : Type} {l : List (String × β)}
    (hnd : (l.map Prod.fst).Nodup) : ∀ e ∈ l, List.lookup e.1 l = some e.2 := by
  induction l with
  | nil => intro e he; cases he
  | cons a rest ih =>
      intro e he
      obtain ⟨aid, av⟩ := a
      simp only [List.map_cons, List.nodup_cons] at hnd
      rcases List.mem_cons.1 he with rfl | hmem
      · simp [lookup_cons_str]
      · rw [lookup_cons_str]
        by_cases hk : e.1 = aid
        · exfalso
          exact hnd.1 (hk ▸ (List.mem_map.2 ⟨e, hmem, rfl⟩))
        · rw [if_neg hk]
          exact ih hnd.2 e hmem

theorem mem_of_lookup_eq_some {β : Type} {k : String} {v : β} :
    ∀ {l : List (String × β)}, List.lookup k l = some v → (k, v) ∈ l := by
  intro l
  induction l with
  | nil => intro h; cases h
  | cons a rest ih =>
      intro h
      obtain ⟨aid, av⟩ := a
      rw [lookup_cons_str] at h
      by_cases hk : k = aid
      · rw [if_pos hk] at h
        cases h
        exact hk ▸ List.mem_cons_self _ _
      · rw [if_neg hk] at h
        exact List.mem_cons_of_mem _ (ih h)

theorem sum_map_add {α : Type} (f g : α → Nat) :
    ∀ l : List α, ((l.map fun x => f x + g x).sum) =
      (l.map f).sum + (l.map g).sum := by
  intro l
  induction l with
  | nil => rfl
  | cons x l ih => simp only [List.map_cons, List.sum_cons, ih]; omega

theorem sum_ite_eq_count (x : CId) :
    ∀ l : List CId, ((l.map fun b => if x = b then 1 else 0).sum) = l.count x := by
  intro l
  induction l with
  | nil => rfl
  | cons b l ih =>
      simp only [List.map_cons, List.sum_cons, List.count_cons, ih, beq_iff_eq]
      by_cases h : x = b
      · rw [if_pos h, if_pos h.symm]; omega
      · rw [if_neg h, if_neg fun hh => h hh.symm]; omega

theorem sum_count_comm : ∀ l1 l2 : List CId,
    ((l1.map fun a => l2.count a).sum) = ((l2.map fun b => l1.count b).sum) := by
  intro l1
  induction l1 with
  | nil =>
      intro l2
      simp
  | cons x l1 ih =>
      intro l2
      simp only [List.map_cons, List.sum_cons]
      have : (l2.map fun b => (x :: l1).count b) =
          l2.map fun b => l1.count b + if x = b then 1 else 0 := by
        refine List.map_congr_left fun b _ => ?_
        rw [List.count_cons]
        simp only [beq_iff_eq]
      rw [this, sum_map_add, ih l2, sum_ite_eq_count]
      omega

theorem sum_map_sum_comm {α β : Type} (f : α → β → Nat) :
    ∀ (l1 : List α) (l2 : List β),
      ((l1.map fun a => (l2.map fun b => f a b).sum).sum) =
        ((l2.map fun b => (l1.map fun a => f a b).sum).sum) := by
  intro l1
  induction l1 with
  | nil =>
      intro l2; simp
  | cons x l1 ih =>
      intro l2
      simp only [List.map_cons, List.sum_cons]
      rw [ih l2, ← sum_map_add]

theorem sum_map_ite_eq_filter (f : TId → Nat) (D : List TId) :
    ∀ l : List TId, ((l.map fun p => if p ∈ D then f p else 0).sum) =
      (((l.filter fun p => decide (p ∈ D)).map f).sum) := by
  intro l
  induction l with
  | nil => rfl
  | cons x l ih =>
      simp only [List.map_cons, List.sum_cons, List.filter_cons]
      by_cases hx : x ∈ D
      · rw [if_pos hx, if_pos (decide_eq_true hx)]
        simp only [List.map_cons, List.sum_cons, ih]
      · rw [if_neg hx, if_neg fun hd => hx (of_decide_eq_true hd), ih]
        omega

theorem sum_map_ite_mem {l D : List TId} (f : TId → Nat)
    (hnd : l.Nodup) (hDnd : D.Nodup) (hsub : ∀ k ∈ D, k ∈ l) :
    ((l.map fun p => if p ∈ D then f p else 0).sum) = (D.map f).sum := by
  have hfil : List.Perm (l.filter fun p => decide (p ∈ D)) D := by
    rw [List.perm_ext_iff_of_nodup (hnd.filter _) hDnd]
    intro a
    simp only [List.mem_filter, decide_eq_true_eq]
    exact ⟨fun h => h.2, fun h => ⟨hsub a h, h⟩⟩
  have h2 : ((l.filter fun p => decide (p ∈ D)).map f).sum = (D.map f).sum :=
    (hfil.map f).sum_eq
  rw [sum_map_ite_eq_filter, h2]

theorem sumDec_append (xforms : List (TId × PTransform)) (D F : List TId)
    (k : TId) : sumDec xforms (D ++ F) k = sumDec xforms D k + sumDec xforms F k := by
  simp [sumDec]

theorem decFromI_pos_lookup {xforms : List (TId × PTransform)} {p k : TId}
    (h : 0 < decFromI xforms p k) :
    ∃ tp tk, List.lookup p xforms = some tp ∧ List.lookup k xforms = some tk ∧
      0 < decCount tp tk := by
  rw [decFromI] at h
  rcases hp : List.lookup p xforms with _ | tp <;> rw [hp] at h
  · simp at h
  · rcases hk : List.lookup k xforms with _ | tk <;> rw [hk] at h
    · simp at h
    · exact ⟨tp, tk, rfl, rfl, h⟩

theorem decCount_pos_iff (tp tk : PTransform) :
    0 < decCount tp tk ↔ ∃ c ∈ outVals tp, c ∈ inVals tk := by
  rw [decCount]
  constructor
  · intro h
    by_contra hno
    push_neg at hno
    have : ((outVals tp).map fun o => (inVals tk).count o) =
        (outVals tp).map fun _ => 0 := by
      refine List.map_congr_left fun o ho => ?_
      rw [List.count_eq_zero]
      exact hno o ho
    rw [this] at h
    simp at h
  · rintro ⟨c, hco, hci⟩
    by_contra hle
    push_neg at hle
    interval_cases h : ((outVals tp).map fun o => (inVals tk).count o).sum
    rw [List.sum_eq_zero_iff] at h
    have := h ((inVals tk).count c) (List.mem_map.2 ⟨c, hco, rfl⟩)
    rw [List.count_eq_zero] at this
    exact this hci

/-- `depends` coincides with a positive decrement count. -/
theorem depends_iff_decFromI_pos (xforms : List (TId × PTransform))
    (p k : TId) : depends xforms p k ↔ 0 < decFromI xforms p k := by
  constructor
  · rintro ⟨c, ⟨tp, hp, hco⟩, ⟨tk, hk, hci⟩⟩
    rw [decFromI, hp, hk]
    exact (decCount_pos_iff tp tk).2 ⟨c, hco, hci⟩
  · intro h
    obtain ⟨tp, tk, hp, hk, hpos⟩ := decFromI_pos_lookup h
    obtain ⟨c, hco, hci⟩ := (decCount_pos_iff tp tk).1 hpos
    exact ⟨c, ⟨tp, hp, hco⟩, ⟨tk, hk, hci⟩⟩

/-- Structure of a drain event: the writer is the drained transform, the
collection is one of its outputs, and the consumer is a transform taking
that collection as input. -/
theorem mem_drainEvents {xforms : List (TId × PTransform)} {p : TId}
    {e : TId × TId × CId} :
    e ∈ drainEvents xforms p ↔
      e.1 = p ∧ e.2.2 ∈ outValsOpt (List.lookup p xforms) ∧
        ∃ ct ∈ xforms, ct.1 = e.2.1 ∧ e.2.2 ∈ inVals ct.2 := by
  rw [drainEvents]
  simp only [List.mem_flatMap, List.mem_filterMap]
  constructor
  · rintro ⟨out, hout, ct, hct, i, hi, hsome⟩
    by_cases hio : i = out
    · rw [if_pos hio] at hsome
      cases hsome
      exact ⟨rfl, hout, ct, hct, rfl, hio ▸ hi⟩
    · rw [if_neg hio] at hsome
      cases hsome
  · obtain ⟨w, cid, c⟩ := e
    rintro ⟨rfl, hout, ct, hct, hcid, hci⟩
    exact ⟨c, hout, ct, hct, c, hci, by rw [if_pos rfl, hcid]⟩

theorem mem_roundEvents {xforms : List (TId × PTransform)}
    {frontier : List TId} {e : TId × TId × CId} :
    e ∈ roundEvents xforms frontier ↔
      e.1 ∈ frontier ∧ e.2.2 ∈ outValsOpt (List.lookup e.1 xforms) ∧
        ∃ ct ∈ xforms, ct.1 = e.2.1 ∧ e.2.2 ∈ inVals ct.2 := by
  rw [roundEvents]
  simp only [List.mem_flatMap]
  constructor
  · rintro ⟨p, hp, he⟩
    obtain ⟨rfl, h2, h3⟩ := mem_drainEvents.1 he
    exact ⟨hp, h2, h3⟩
  · rintro ⟨h1, h2, h3⟩
    exact ⟨e.1, h1, mem_drainEvents.2 ⟨rfl, h2, h3⟩⟩

/-- Declared input-slot count of a transform id (matches `initAdjs`). -/
def inCountI (xforms : List (TId × PTransform)) (k : TId) : Nat :=
  match List.lookup k xforms with
  | some tk => (inVals tk).length
  | none => 0

/-- Under unique production of each consumed collection, the total
decrement count a consumer receives from all transforms equals its
input-slot count. -/
theorem sumDec_all_eq_inCount {xforms : List (TId × PTransform)}
    (hnd : (xforms.map Prod.fst).Nodup) {k : TId} {tk : PTransform}
    (hk : List.lookup k xforms = some tk)
    (huniq : ∀ c ∈ inVals tk, prodSlots xforms c = 1) :
    sumDec xforms (xforms.map Prod.fst) k = (inVals tk).length := by
  rw [sumDec, List.map_map]
  have h1 : (xforms.map ((fun p => decFromI xforms p k) ∘ Prod.fst)) =
      xforms.map fun e => ((inVals tk).map fun c => (outVals e.2).count c).sum := by
    refine List.map_congr_left fun e he => ?_
    have : decFromI xforms e.1 k = decCount e.2 tk := by
      rw [decFromI, lookup_entry_of_mem hnd e he, hk]
    simp only [Function.comp_apply, this, decCount, sum_count_comm]
  rw [h1, sum_map_sum_comm (fun e c => (outVals e.2).count c) xforms (inVals tk)]
  have h2 : ((inVals tk).map fun c => (xforms.map fun e => (outVals e.2).count c).sum) =
      (inVals tk).map fun _ => 1 := by
    refine List.map_congr_left fun c hc => ?_
    exact huniq c hc
  rw [h2]
  induction inVals tk with
  | nil => rfl
  | cons x l ih => simp [ih]; omega

/-- If every producer of `k` (positive decrement count) lies in `D`, the
total decrement count over all transforms equals the one over `D`. -/
theorem sumDec_eq_of_producers_sub {xforms : List (TId × PTransform)}
    (hnd : (xforms.map Prod.fst).Nodup) {D : List TId} (hDnd : D.Nodup)
    (hDsub : ∀ p ∈ D, p ∈ xforms.map Prod.fst) {k : TId}
    (hprod : ∀ p, 0 < decFromI xforms p k → p ∈ D) :
    sumDec xforms (xforms.map Prod.fst) k = sumDec xforms D k := by
  rw [sumDec, sumDec]
  have h1 : ((xforms.map Prod.fst).map fun p => decFromI xforms p k) =
      (xforms.map Prod.fst).map fun p =>
        if p ∈ D then decFromI xforms p k else 0 := by
    refine List.map_congr_left fun p _ => ?_
    by_cases hp : p ∈ D
    · rw [if_pos hp]
    · rw [if_neg hp]
      by_contra hne
      exact hp (hprod p (Nat.pos_of_ne_zero fun hz => hne hz))
  rw [h1, sum_map_ite_mem (fun p => decFromI xforms p k) hnd hDnd hDsub]

/-- Effect of one round on the sorter state, stated with `sumDec`. -/
theorem processRound_spec {xforms : List (TId × PTransform)}
    (hnd : (xforms.map Prod.fst).Nodup) {frontier : List TId} {st st' : SortSt}
    (h : processRound xforms frontier st = .ok st') :
    (∀ k, st'.adjs k = st.adjs k - (sumDec xforms frontier k : Int))
    ∧ st'.nextFrontier.Nodup
    ∧ (∀ k, k ∈ st'.nextFrontier ↔
        1 ≤ st.adjs k ∧ st.adjs k ≤ (sumDec xforms frontier k : Int))
    ∧ (∀ c, (st'.colls c).isSome = (st.colls c).isSome) := by
  rw [processRound_eq_evrun] at h
  obtain ⟨hadj, ⟨A, hAeq, hAnd, hAmem⟩, hcolls⟩ :=
    evrun_spec xforms (roundEvents xforms frontier) _ _ h
  simp only [List.nil_append] at hAeq
  have hcnt : ∀ k, cntE (roundEvents xforms frontier) k =
      sumDec xforms frontier k := cntE_roundEvents xforms hnd frontier
  refine ⟨fun k => ?_, ?_, fun k => ?_, fun c => hcolls c⟩
  · have := hadj k
    rw [hcnt k] at this
    exact this
  · rw [hAeq]; exact hAnd
  · rw [hAeq]
    have := hAmem k
    rw [hcnt k] at this
    exact this

/-- A round with every event's collection registered succeeds. -/
theorem processRound_ok {xforms : List (TId × PTransform)}
    {frontier : List TId} {st : SortSt}
    (hpres : ∀ e ∈ roundEvents xforms frontier,
      (st.colls e.2.2).isSome = true) :
    ∃ st', processRound xforms frontier st = .ok st' := by
  rw [processRound_eq_evrun]
  exact evrun_ok xforms (roundEvents xforms frontier) _ hpres

theorem exists_pos_of_sumDec_pos {xforms : List (TId × PTransform)}
    {l : List TId} {k : TId} (h : 0 < sumDec xforms l k) :
    ∃ p ∈ l, 0 < decFromI xforms p k := by
  by_contra hno
  push_neg at hno
  have heq : (l.map fun p => decFromI xforms p k) = l.map fun _ => 0 :=
    List.map_congr_left fun p hp => Nat.eq_zero_of_le_zero (hno p hp)
  rw [sumDec, heq] at h
  simp at h

theorem le_sumDec_of_mem {xforms : List (TId × PTransform)} {l : List TId}
    {p : TId} (hp : p ∈ l) (k : TId) :
    decFromI xforms p k ≤ sumDec xforms l k :=
  List.single_le_sum (fun x _ => Nat.zero_le x) _
    (List.mem_map.2 ⟨p, hp, rfl⟩)

theorem sumDec_le_keys {xforms : List (TId × PTransform)}
    (hnd : (xforms.map Prod.fst).Nodup) {S : List TId} (hSnd : S.Nodup)
    (hSsub : ∀ p ∈ S, p ∈ xforms.map Prod.fst) (k : TId) :
    sumDec xforms S k ≤ sumDec xforms (xforms.map Prod.fst) k := by
  rw [show sumDec xforms S k =
      (((xforms.map Prod.fst).map fun p =>
        if p ∈ S then decFromI xforms p k else 0)).sum from
    (sum_map_ite_mem (fun p => decFromI xforms p k) hnd hSnd hSsub).symm]
  rw [sumDec]
  refine List.sum_le_sum fun p _ => ?_
  by_cases hp : p ∈ S
  · rw [if_pos hp]
  · rw [if_neg hp]; exact Nat.zero_le _

theorem lookup_isSome_of_mem_keys {β : Type} {k : String} :
    ∀ {l : List (String × β)}, k ∈ l.map Prod.fst →
      (List.lookup k l).isSome = true := by
  intro l
  induction l with
  | nil => intro h; cases h
  | cons a rest ih =>
      intro h
      obtain ⟨aid, av⟩ := a
      rw [lookup_cons_str]
      by_cases hk : k = aid
      · rw [if_pos hk]; rfl
      · rw [if_neg hk]
        simp only [List.map_cons, List.mem_cons] at h
        rcases h with h | h
        · exact absurd h hk
        · exact ih h

theorem mem_rootIds_iff {b : BundleDescriptor} {k : TId} :
    k ∈ rootIds b ↔ ∃ e ∈ b.transforms, e.1 = k ∧ e.2.inputs.length = 0 := by
  rw [rootIds]
  simp only [List.mem_map, List.mem_filter, decide_eq_true_eq]
  constructor
  · rintro ⟨e, ⟨he, hlen⟩, rfl⟩
    exact ⟨e, he, rfl, hlen⟩
  · rintro ⟨e, he, rfl, hlen⟩
    exact ⟨e, ⟨he, hlen⟩, rfl⟩

/-- The invariant threaded through the rounds of the sorter.  `D` is the
(ghost) list of transforms drained so far, in drain order; `frontier` is
the list about to be drained. -/
structure KahnInv (xforms : List (TId × PTransform)) (D frontier : List TId)
    (st : SortSt) : Prop where
  dnodup : (D ++ frontier).Nodup
  dsub : ∀ k ∈ D ++ frontier, k ∈ xforms.map Prod.fst
  adjsEq : ∀ k ∈ xforms.map Prod.fst,
    st.adjs k = (inCountI xforms k : Int) - (sumDec xforms D k : Int)
  coverIff : ∀ k ∈ xforms.map Prod.fst,
    (k ∈ D ++ frontier ↔ ∀ p, 0 < decFromI xforms p k → p ∈ D)
  ordered : ∀ p k, 0 < decFromI xforms p k → k ∈ D ++ frontier →
    p ∈ D ∧ (D ++ frontier).indexOf p < (D ++ frontier).indexOf k
  collsDom : ∀ ct ∈ xforms, ∀ c ∈ inVals ct.2, (st.colls c).isSome = true

/-- The invariant holds at the start of the loop. -/
theorem kahn_init (b : BundleDescriptor) (hWF : SortWF b) :
    KahnInv b.transforms [] (rootIds b)
      { adjs := initAdjs b, colls := initColls b, nextFrontier := [] } := by
  have hroots_sub : ∀ k ∈ rootIds b, k ∈ b.transforms.map Prod.fst := by
    intro k hk
    obtain ⟨e, he, rfl, _⟩ := mem_rootIds_iff.1 hk
    exact List.mem_map.2 ⟨e, he, rfl⟩
  have hroots_nd : (rootIds b).Nodup := by
    rw [rootIds]
    exact ((List.filter_sublist _).map Prod.fst).nodup hWF.nodupKeys
  have hnoprod : ∀ k ∈ rootIds b, ∀ p, ¬ 0 < decFromI b.transforms p k := by
    intro k hk p hpos
    obtain ⟨e, he, rfl, hlen⟩ := mem_rootIds_iff.1 hk
    obtain ⟨tp, tk, _, hkk, hdc⟩ := decFromI_pos_lookup hpos
    rw [lookup_entry_of_mem hWF.nodupKeys e he] at hkk
    cases hkk
    obtain ⟨c, _, hci⟩ := (decCount_pos_iff tp e.2).1 hdc
    rw [inVals, List.length_eq_zero.1 hlen] at hci
    cases hci
  refine ⟨by simpa using hroots_nd, by simpa using hroots_sub, ?_, ?_, ?_, ?_⟩
  · intro k _
    simp only [initAdjs, inCountI, sumDec, List.map_nil, List.sum_nil,
      Nat.cast_zero, Int.sub_zero]
    rcases List.lookup k b.transforms with _ | tr
    · rfl
    · simp [inVals]
  · intro k hkk
    simp only [List.nil_append]
    constructor
    · intro hk p hpos
      exact absurd hpos (hnoprod k hk p)
    · intro hall
      obtain ⟨tk, hk⟩ :=
        Option.isSome_iff_exists.1 (lookup_isSome_of_mem_keys hkk)
      by_cases hlen : (inVals tk).length = 0
      · refine mem_rootIds_iff.2 ⟨(k, tk), mem_of_lookup_eq_some hk, rfl, ?_⟩
        simpa [inVals] using hlen
      · exfalso
        have hpos : 0 < sumDec b.transforms (b.transforms.map Prod.fst) k := by
          rw [sumDec_all_eq_inCount hWF.nodupKeys hk
            (hWF.uniqueProducer (k, tk) (mem_of_lookup_eq_some hk))]
          omega
        obtain ⟨p, _, hp⟩ := exists_pos_of_sumDec_pos hpos
        exact absurd (hall p hp) (List.not_mem_nil p)
  · intro p k hpos hk
    simp only [List.nil_append] at hk
    exact absurd hpos (hnoprod k hk p)
  · intro ct hct c hc
    simp only [initColls]
    rcases hl : List.lookup c b.pcollections with _ | pc
    · have hr := hWF.registered ct hct c hc
      rw [hl] at hr
      cases hr
    · rfl

/-- One round preserves the invariant, extending the drained list by the
processed frontier. -/
theorem kahn_step {xforms : List (TId × PTransform)}
    (hnd : (xforms.map Prod.fst).Nodup)
    (huniq : ∀ e ∈ xforms, ∀ c ∈ inVals e.2, prodSlots xforms c = 1)
    {D frontier : List TId} {st st' : SortSt}
    (hinv : KahnInv xforms D frontier st)
    (h : processRound xforms frontier st = .ok st') :
    KahnInv xforms (D ++ frontier) st'.nextFrontier st' := by
  obtain ⟨S1, S2, S3, S4⟩ := processRound_spec hnd h
  have hLnd : (D ++ frontier).Nodup := hinv.dnodup
  have hDnd : D.Nodup := hLnd.of_append_left
  have hLsub := hinv.dsub
  have hDsub : ∀ p ∈ D, p ∈ xforms.map Prod.fst :=
    fun p hp => hLsub p (List.mem_append_left _ hp)
  have hink : ∀ k ∈ xforms.map Prod.fst,
      inCountI xforms k = sumDec xforms (xforms.map Prod.fst) k := by
    intro k hkk
    obtain ⟨tk, hk⟩ :=
      Option.isSome_iff_exists.1 (lookup_isSome_of_mem_keys hkk)
    simp only [inCountI, hk]
    exact (sumDec_all_eq_inCount hnd hk
      (huniq (k, tk) (mem_of_lookup_eq_some hk))).symm
  have hcovprod : ∀ k ∈ D ++ frontier, ∀ p,
      0 < decFromI xforms p k → p ∈ D :=
    fun k hk => (hinv.coverIff k (hLsub k hk)).1 hk
  have hzero : ∀ k ∈ D ++ frontier, st.adjs k = 0 := by
    intro k hk
    have hadj := hinv.adjsEq k (hLsub k hk)
    have hDeq : sumDec xforms (xforms.map Prod.fst) k = sumDec xforms D k :=
      sumDec_eq_of_producers_sub hnd hDnd hDsub (hcovprod k hk)
    have hik := hink k (hLsub k hk)
    omega
  have hApos : ∀ k ∈ st'.nextFrontier, 1 ≤ st.adjs k :=
    fun k hk => ((S3 k).1 hk).1
  have hAkeys : ∀ k ∈ st'.nextFrontier, k ∈ xforms.map Prod.fst := by
    intro k hk
    have h1 := ((S3 k).1 hk).1
    have h2 := ((S3 k).1 hk).2
    have hpos : 0 < sumDec xforms frontier k := by omega
    obtain ⟨p, _, hp⟩ := exists_pos_of_sumDec_pos hpos
    obtain ⟨tp, tk, _, hkk, _⟩ := decFromI_pos_lookup hp
    exact mem_keys_of_lookup_isSome (by rw [hkk]; rfl)
  have hdisj : ∀ k ∈ D ++ frontier, k ∉ st'.nextFrontier := by
    intro k hk hkA
    have h1 := hzero k hk
    have h2 := hApos k hkA
    omega
  have hAprod : ∀ k ∈ st'.nextFrontier, ∀ p,
      0 < decFromI xforms p k → p ∈ D ++ frontier := by
    intro k hkA p hp
    by_contra hpL
    obtain ⟨tp, tk, hpp, hkk, _⟩ := decFromI_pos_lookup hp
    have hpkeys : p ∈ xforms.map Prod.fst :=
      mem_keys_of_lookup_isSome (by rw [hpp]; rfl)
    have hkkeys : k ∈ xforms.map Prod.fst := hAkeys k hkA
    have h1 := hApos k hkA
    have h2 := ((S3 k).1 hkA).2
    have hadj := hinv.adjsEq k hkkeys
    have hSnd : (D ++ frontier ++ [p]).Nodup := by
      rw [List.nodup_append]
      refine ⟨hLnd, List.nodup_singleton p, ?_⟩
      intro a ha hb
      rw [List.mem_singleton] at hb
      exact hpL (hb ▸ ha)
    have hSsub : ∀ q ∈ D ++ frontier ++ [p], q ∈ xforms.map Prod.fst := by
      intro q hq
      rcases List.mem_append.1 hq with hq | hq
      · exact hLsub q hq
      · rw [List.mem_singleton] at hq
        exact hq ▸ hpkeys
    have hle := sumDec_le_keys hnd hSnd hSsub k
    rw [sumDec_append, sumDec_append] at hle
    have hsingle : sumDec xforms [p] k = decFromI xforms p k := by
      simp [sumDec]
    have hik := hink k hkkeys
    omega
  refine ⟨?_, ?_, ?_, ?_, ?_, ?_⟩
  · rw [List.nodup_append]
    exact ⟨hLnd, S2, fun a ha hb => hdisj a ha hb⟩
  · intro k hk
    rcases List.mem_append.1 hk with hk | hk
    · exact hLsub k hk
    · exact hAkeys k hk
  · intro k hkk
    have hs := S1 k
    have hadj := hinv.adjsEq k hkk
    rw [sumDec_append]
    omega
  · intro k hkk
    constructor
    · intro hk p hp
      rcases List.mem_append.1 hk with hk | hk
      · exact List.mem_append_left _ (hcovprod k hk p hp)
      · exact hAprod k hk p hp
    · intro hall
      by_cases hin : k ∈ D ++ frontier
      · exact List.mem_append_left _ hin
      · refine List.mem_append_right _ ?_
        have hnall : ¬ ∀ p, 0 < decFromI xforms p k → p ∈ D :=
          fun hc => hin ((hinv.coverIff k hkk).2 hc)
        push_neg at hnall
        obtain ⟨p1, hp1pos, hp1D⟩ := hnall
        have hp1L : p1 ∈ D ++ frontier := hall p1 hp1pos
        have hp1F : p1 ∈ frontier := by
          rcases List.mem_append.1 hp1L with hh | hh
          · exact absurd hh hp1D
          · exact hh
        have hadj := hinv.adjsEq k hkk
        have hsumL : sumDec xforms (xforms.map Prod.fst) k =
            sumDec xforms (D ++ frontier) k :=
          sumDec_eq_of_producers_sub hnd hLnd hLsub hall
        rw [sumDec_append] at hsumL
        have hik := hink k hkk
        have hp1le : decFromI xforms p1 k ≤ sumDec xforms frontier k :=
          le_sumDec_of_mem hp1F k
        rw [S3 k]
        omega
  · intro p k hp hkL'
    rcases List.mem_append.1 hkL' with hkL | hkA
    · obtain ⟨hpD, hidx⟩ := hinv.ordered p k hp hkL
      have hpL : p ∈ D ++ frontier := List.mem_append_left _ hpD
      refine ⟨hpL, ?_⟩
      rw [List.indexOf_append_of_mem hpL, List.indexOf_append_of_mem hkL]
      exact hidx
    · have hpL : p ∈ D ++ frontier := hAprod k hkA p hp
      have hknotL : k ∉ D ++ frontier := fun hkL => hdisj k hkL hkA
      refine ⟨hpL, ?_⟩
      rw [List.indexOf_append_of_mem hpL,
        List.indexOf_append_of_not_mem hknotL]
      have := List.indexOf_lt_length.2 hpL
      omega
  · intro ct hct c hc
    rw [S4 c]
    exact hinv.collsDom ct hct c hc

/-- A finite nonempty list of vertices of a graph with no cycles has an
element with no predecessor in the list. -/
theorem exists_min_of_acyclic {r : TId → TId → Prop}
    (hacy : ∀ x, ¬ Relation.TransGen r x x) {l : List TId} (hne : l ≠ []) :
    ∃ m ∈ l, ∀ p ∈ l, ¬ r p m := by
  have hfin : Finite {x // x ∈ l} := l.finite_toSet.to_subtype
  let r' : {x // x ∈ l} → {x // x ∈ l} → Prop :=
    fun a b => Relation.TransGen r a.1 b.1
  have htrans : IsTrans {x // x ∈ l} r' := ⟨fun _ _ _ hab hbc => hab.trans hbc⟩
  have hirr : IsIrrefl {x // x ∈ l} r' := ⟨fun a h => hacy a.1 h⟩
  have hwf : WellFounded r' := Finite.wellFounded_of_trans_of_irrefl r'
  obtain ⟨x0, hx0⟩ := List.exists_mem_of_ne_nil l hne
  obtain ⟨m, _, hmin⟩ := hwf.has_min Set.univ ⟨⟨x0, hx0⟩, Set.mem_univ _⟩
  refine ⟨m.1, m.2, fun p hp hrp => ?_⟩
  exact hmin ⟨p, hp⟩ (Set.mem_univ _) (Relation.TransGen.single hrp)

/-- Number of transforms whose pending count is still positive: the
termination measure of the sorter's outer loop. -/
def posCount (xforms : List (TId × PTransform)) (st : SortSt) : Nat :=
  ((xforms.map Prod.fst).filter fun k => decide (1 ≤ st.adjs k)).length

theorem posCount_lt_of_round {xforms : List (TId × PTransform)}
    (hnd : (xforms.map Prod.fst).Nodup) {frontier : List TId} {st st' : SortSt}
    (h : processRound xforms frontier st = .ok st')
    {a : TId} (haA : a ∈ st'.nextFrontier) (hak : a ∈ xforms.map Prod.fst) :
    posCount xforms st' < posCount xforms st := by
  obtain ⟨S1, S2, S3, S4⟩ := processRound_spec hnd h
  have hsub : List.Sublist
      ((xforms.map Prod.fst).filter fun k => decide (1 ≤ st'.adjs k))
      ((xforms.map Prod.fst).filter fun k => decide (1 ≤ st.adjs k)) := by
    apply List.monotone_filter_right
    intro k hk
    rw [decide_eq_true_eq] at hk ⊢
    have := S1 k
    omega
  have haf : a ∈ (xforms.map Prod.fst).filter
      fun k => decide (1 ≤ st.adjs k) := by
    rw [List.mem_filter]
    exact ⟨hak, decide_eq_true (((S3 a).1 haA).1)⟩
  have hanf : a ∉ (xforms.map Prod.fst).filter
      fun k => decide (1 ≤ st'.adjs k) := by
    rw [List.mem_filter]
    rintro ⟨_, hd⟩
    rw [decide_eq_true_eq] at hd
    have h1 := ((S3 a).1 haA).1
    have h2 := ((S3 a).1 haA).2
    have h3 := S1 a
    omega
  rcases Nat.lt_or_ge
    (((xforms.map Prod.fst).filter fun k => decide (1 ≤ st'.adjs k)).length)
    (((xforms.map Prod.fst).filter fun k => decide (1 ≤ st.adjs k)).length)
    with hlt | hge
  · exact hlt
  · exact absurd (hsub.eq_of_length_le hge ▸ haf) hanf

/-- Main loop lemma: from an invariant state with enough fuel, the loop
returns; the drained-plus-returned sequence has no duplicates, stays
within the declared transforms, and respects the dependency order; and
when the dependency graph is acyclic it covers every transform. -/
theorem sortLoop_inv {xforms : List (TId × PTransform)}
    (hnd : (xforms.map Prod.fst).Nodup)
    (huniq : ∀ e ∈ xforms, ∀ c ∈ inVals e.2, prodSlots xforms c = 1) :
    ∀ (fuel : Nat) (D frontier : List TId) (st : SortSt),
      KahnInv xforms D frontier st →
      posCount xforms st + 1 ≤ fuel →
      ∃ out colls, sortLoop xforms fuel frontier st = .ok (out, colls) ∧
        (D ++ out).Nodup ∧
        (∀ k ∈ D ++ out, k ∈ xforms.map Prod.fst) ∧
        (∀ p k, 0 < decFromI xforms p k → k ∈ D ++ out →
          p ∈ D ++ out ∧ (D ++ out).indexOf p < (D ++ out).indexOf k) ∧
        ((∀ x, ¬ Relation.TransGen (depends xforms) x x) →
          ∀ k ∈ xforms.map Prod.fst, k ∈ D ++ out) := by
  intro fuel
  induction fuel with
  | zero => intro D frontier st _ hfuel; omega
  | succ fuel ih =>
      intro D frontier st hinv hfuel
      obtain ⟨st', hst'⟩ : ∃ st', processRound xforms frontier st = .ok st' := by
        apply processRound_ok
        intro e he
        obtain ⟨_, _, ct, hct, _, hci⟩ := mem_roundEvents.1 he
        exact hinv.collsDom ct hct e.2.2 hci
      have hinv' := kahn_step hnd huniq hinv hst'
      by_cases hA : st'.nextFrontier = []
      · refine ⟨frontier, st'.colls, ?_, hinv.dnodup, hinv.dsub, ?_, ?_⟩
        · simp [sortLoop, hst', hA]
        · intro p k hp hk
          have := hinv'.ordered p k hp (by rw [hA, List.append_nil]; exact hk)
          rw [hA, List.append_nil] at this
          exact ⟨(this.1), this.2⟩
        · intro hacy k hkk
          by_contra hkL
          have hkR : k ∈ (xforms.map Prod.fst).filter
              fun q => decide (¬ q ∈ D ++ frontier) := by
            rw [List.mem_filter]
            exact ⟨hkk, decide_eq_true hkL⟩
          obtain ⟨m, hmR, hmin⟩ :=
            exists_min_of_acyclic hacy (List.ne_nil_of_mem hkR)
          rw [List.mem_filter, decide_eq_true_eq] at hmR
          apply hmR.2
          have hm : m ∈ D ++ frontier ++ st'.nextFrontier := by
            refine (hinv'.coverIff m hmR.1).2 fun p hp => ?_
            obtain ⟨tp, tk, hpp, _, _⟩ := decFromI_pos_lookup hp
            have hpk : p ∈ xforms.map Prod.fst :=
              mem_keys_of_lookup_isSome (by rw [hpp]; rfl)
            by_cases hpL : p ∈ D ++ frontier
            · exact hpL
            · exfalso
              refine hmin p ?_ ((depends_iff_decFromI_pos xforms p m).2 hp)
              rw [List.mem_filter]
              exact ⟨hpk, decide_eq_true hpL⟩
          rw [hA, List.append_nil] at hm
          exact hm
      · obtain ⟨a, haA⟩ := List.exists_mem_of_ne_nil _ hA
        have hak : a ∈ xforms.map Prod.fst :=
          hinv'.dsub a (List.mem_append_right _ haA)
        have hlt := posCount_lt_of_round hnd hst' haA hak
        obtain ⟨out', colls, hrec, hnd', hsub', hord', hcomp'⟩ :=
          ih (D ++ frontier) st'.nextFrontier st' hinv' (by omega)
        have hassoc : D ++ (frontier ++ out') = D ++ frontier ++ out' :=
          (List.append_assoc D frontier out').symm
        refine ⟨frontier ++ out', colls, ?_, ?_, ?_, ?_, ?_⟩
        · simp [sortLoop, hst', hA, hrec]
        · rw [hassoc]; exact hnd'
        · rw [hassoc]; exact hsub'
        · intro p k hp hk
          rw [hassoc] at hk ⊢
          exact hord' p k hp hk
        · intro hacy k hkk
          rw [hassoc]
          exact hcomp' hacy k hkk

theorem evrun_no_fail (xforms : List (TId × PTransform))
    (E : List (TId × TId × CId)) :
    ∀ st e, E.foldlM (applyEvent xforms) st ≠ .fail e := by
  induction E with
  | nil => intro st e h; simp at h
  | cons ev E ih =>
      intro st e h
      rw [List.foldlM_cons] at h
      rcases hc : st.colls ev.2.2 with _ | info
      · simp [applyEvent, hc] at h
      · simp only [applyEvent, hc, Res.bind_ok] at h
        exact ih _ e h

theorem sortLoop_no_fail (xforms : List (TId × PTransform)) :
    ∀ fuel frontier st e, sortLoop xforms fuel frontier st ≠ .fail e := by
  intro fuel
  induction fuel with
  | zero => intro frontier st e h; simp [sortLoop] at h
  | succ fuel ih =>
      intro frontier st e h
      rw [sortLoop] at h
      rcases hpr : processRound xforms frontier st with st' | e' | c
      · rw [hpr] at h
        simp only at h
        by_cases hA : st'.nextFrontier = []
        · rw [if_pos hA] at h; cases h
        · rw [if_neg hA] at h
          rcases hrec : sortLoop xforms fuel st'.nextFrontier st' with
            ⟨rest, colls⟩ | e'' | c
          · rw [hrec] at h; cases h
          · rw [hrec] at h
            cases h
            exact ih _ _ _ hrec
          · rw [hrec] at h; cases h
      · rw [processRound_eq_evrun] at hpr
        exact evrun_no_fail xforms _ _ e' hpr
      · rw [hpr] at h; cases h

theorem cntE_pos_exists {E : List (TId × TId × CId)} {k : TId}
    (h : 0 < cntE E k) : ∃ e ∈ E, e.2.1 = k := by
  rw [cntE, List.countP_pos_iff] at h
  obtain ⟨e, he, hk⟩ := h
  exact ⟨e, he, of_decide_eq_true hk⟩

/-- Without any well-formedness assumption beyond the state of the
frontier, a successful loop run returns a duplicate-free list of declared
transform ids, extending the frontier. -/
theorem sortLoop_good (xforms : List (TId × PTransform)) :
    ∀ fuel frontier st out colls,
      sortLoop xforms fuel frontier st = .ok (out, colls) →
      frontier.Nodup → (∀ k ∈ frontier, k ∈ xforms.map Prod.fst) →
      (∀ k ∈ frontier, st.adjs k ≤ 0) →
      out.Nodup ∧ (∀ k ∈ out, k ∈ xforms.map Prod.fst) ∧
        ∃ rest, out = frontier ++ rest ∧ ∀ k ∈ rest, 1 ≤ st.adjs k := by
  intro fuel
  induction fuel with
  | zero => intro frontier st out colls h; rw [sortLoop] at h; cases h
  | succ fuel ih =>
      intro frontier st out colls h hFnd hFk hFz
      rw [sortLoop] at h
      rcases hpr : processRound xforms frontier st with st' | e' | c
      rotate_left
      · rw [hpr] at h; cases h
      · rw [hpr] at h; cases h
      rw [hpr] at h
      have hev := hpr
      rw [processRound_eq_evrun] at hev
      obtain ⟨hadj, ⟨A, hAeq, hAnd, hAmem⟩, _⟩ :=
        evrun_spec xforms (roundEvents xforms frontier) _ _ hev
      simp only [List.nil_append] at hAeq
      simp only at hadj hAmem
      have hApos : ∀ k ∈ st'.nextFrontier, 1 ≤ st.adjs k := by
        intro k hk
        rw [hAeq] at hk
        exact ((hAmem k).1 hk).1
      have hAkeys : ∀ k ∈ st'.nextFrontier, k ∈ xforms.map Prod.fst := by
        intro k hk
        rw [hAeq] at hk
        have h1 := ((hAmem k).1 hk).1
        have h2 := ((hAmem k).1 hk).2
        have hpos : 0 < cntE (roundEvents xforms frontier) k := by omega
        obtain ⟨e, he, hek⟩ := cntE_pos_exists hpos
        obtain ⟨_, _, ct, hct, hcid, _⟩ := mem_roundEvents.1 he
        rw [← hek, ← hcid]
        exact List.mem_map.2 ⟨ct, hct, rfl⟩
      have hAzero : ∀ k ∈ st'.nextFrontier, st'.adjs k ≤ 0 := by
        intro k hk
        rw [hAeq] at hk
        have h2 := ((hAmem k).1 hk).2
        have h3 := hadj k
        omega
      simp only at h
      by_cases hA : st'.nextFrontier = []
      · rw [if_pos hA] at h
        cases h
        exact ⟨hFnd, hFk, [], by simp, fun k hk => (List.not_mem_nil k hk).elim⟩
      · rw [if_neg hA] at h
        rcases hrec : sortLoop xforms fuel st'.nextFrontier st' with
          ⟨rest', colls'⟩ | e'' | c
        rotate_left
        · rw [hrec] at h; cases h
        · rw [hrec] at h; cases h
        rw [hrec] at h
        cases h
        obtain ⟨hnd', hkeys', rest'', heq'', hrest''⟩ :=
          ih _ _ _ _ hrec
            (hAeq ▸ hAnd) hAkeys hAzero
        have hmono : ∀ k, st'.adjs k ≤ st.adjs k := by
          intro k
          have := hadj k
          omega
        have hFA : ∀ k ∈ frontier, k ∉ rest' := by
          intro k hkF hkR
          rw [heq''] at hkR
          rcases List.mem_append.1 hkR with hk | hk
          · have := hApos k hk
            have := hFz k hkF
            omega
          · have := hrest'' k hk
            have := hmono k
            have := hFz k hkF
            omega
        refine ⟨?_, ?_, rest', rfl, ?_⟩
        · rw [List.nodup_append]
          exact ⟨hFnd, hnd', fun a ha hb => hFA a ha hb⟩
        · intro k hk
          rcases List.mem_append.1 hk with hk | hk
          · exact hFk k hk
          · exact hkeys' k hk
        · intro k hk
          rw [heq''] at hk
          rcases List.mem_append.1 hk with hk | hk
          · exact hApos k hk
          · have := hrest'' k hk
            have := hmono k
            omega

/-- A provenance record is populated with a genuine producer: its
producing-transform-id names a transform whose outputs include the
collection, and its producing-transform field holds that transform. -/
def PopulatedProducer (xforms : List (TId × PTransform))
    (colls : CId → Option PCollInfo) (c : CId) : Prop :=
  ∃ info, colls c = some info ∧ producesTo xforms info.xid c ∧
    info.xform = List.lookup info.xid xforms

/-- Running events whose writers are producers of their collections
establishes the populated-producer property for every written collection
and preserves it elsewhere. -/
theorem evrun_popProd (xforms : List (TId × PTransform))
    (E : List (TId × TId × CId))
    (hgood : ∀ e ∈ E, producesTo xforms e.1 e.2.2) :
    ∀ st st', E.foldlM (applyEvent xforms) st = .ok st' → ∀ c,
      ((∃ e ∈ E, e.2.2 = c) ∨ PopulatedProducer xforms st.colls c) →
      PopulatedProducer xforms st'.colls c := by
  induction E with
  | nil =>
      intro st st' h c hc
      simp only [List.foldlM_nil, Res.pure_eq_ok, Res.ok.injEq] at h
      subst h
      rcases hc with ⟨e, he, _⟩ | hc
      · cases he
      · exact hc
  | cons e E ih =>
      intro st st' h c hc
      rw [List.foldlM_cons] at h
      rcases hcl : st.colls e.2.2 with _ | info
      · simp [applyEvent, hcl] at h
      · simp only [applyEvent, hcl, Res.bind_ok] at h
        have hgood' : ∀ e' ∈ E, producesTo xforms e'.1 e'.2.2 :=
          fun e' he' => hgood e' (List.mem_cons_of_mem e he')
        have hwritten : PopulatedProducer xforms
            (fun c => if c = e.2.2 then
              some { info with xid := e.1, xform := List.lookup e.1 xforms }
              else st.colls c) e.2.2 := by
          refine ⟨{ info with xid := e.1, xform := List.lookup e.1 xforms },
            by simp, ?_, rfl⟩
          exact hgood e (List.mem_cons_self e E)
        rcases hc with ⟨e', he', hec⟩ | hc
        · rcases List.mem_cons.1 he' with heq | he2
          · refine ih hgood' _ st' h c (Or.inr ?_)
            rw [← hec, heq]
            exact hwritten
          · exact ih hgood' _ st' h c (Or.inl ⟨e', he2, hec⟩)
        · by_cases hcc : c = e.2.2
          · refine ih hgood' _ st' h c (Or.inr ?_)
            rw [hcc]
            exact hwritten
          · refine ih hgood' _ st' h c (Or.inr ?_)
            obtain ⟨i, hi, hp, hx⟩ := hc
            exact ⟨i, by simp only [if_neg hcc]; exact hi, hp, hx⟩

theorem roundEvents_good (xforms : List (TId × PTransform))
    (frontier : List TId) :
    ∀ e ∈ roundEvents xforms frontier, producesTo xforms e.1 e.2.2 := by
  intro e he
  obtain ⟨_, hout, _⟩ := mem_roundEvents.1 he
  rcases hl : List.lookup e.1 xforms with _ | tp
  · rw [hl] at hout; cases hout
  · rw [hl] at hout
    exact ⟨tp, hl, hout⟩

/-- Along a successful run of the loop, populated-producer records are
preserved, and the consumed outputs of every drained transform become
populated. -/
theorem sortLoop_popProd (xforms : List (TId × PTransform)) :
    ∀ fuel frontier st out colls,
      sortLoop xforms fuel frontier st = .ok (out, colls) →
      (∀ c, PopulatedProducer xforms st.colls c →
        PopulatedProducer xforms colls c)
      ∧ (∀ p ∈ out, ∀ c, producesTo xforms p c →
          (∃ ct ∈ xforms, c ∈ inVals ct.2) →
          PopulatedProducer xforms colls c) := by
  intro fuel
  induction fuel with
  | zero => intro frontier st out colls h; rw [sortLoop] at h; cases h
  | succ fuel ih =>
      intro frontier st out colls h
      rw [sortLoop] at h
      rcases hpr : processRound xforms frontier st with st' | e' | c0
      rotate_left
      · rw [hpr] at h; cases h
      · rw [hpr] at h; cases h
      rw [hpr] at h
      have hev := hpr
      rw [processRound_eq_evrun] at hev
      have hpop : ∀ c,
          ((∃ e ∈ roundEvents xforms frontier, e.2.2 = c) ∨
            PopulatedProducer xforms st.colls c) →
          PopulatedProducer xforms st'.colls c :=
        fun c hc => evrun_popProd xforms _ (roundEvents_good xforms frontier)
          _ _ hev c hc
      have hfrontEv : ∀ p ∈ frontier, ∀ c, producesTo xforms p c →
          (∃ ct ∈ xforms, c ∈ inVals ct.2) →
          ∃ e ∈ roundEvents xforms frontier, e.2.2 = c := by
        rintro p hp c ⟨tp, hlp, hc⟩ ⟨ct, hct, hci⟩
        refine ⟨(p, ct.1, c), mem_roundEvents.2 ⟨hp, ?_, ct, hct, rfl, hci⟩, rfl⟩
        rw [hlp]
        exact hc
      simp only at h
      by_cases hA : st'.nextFrontier = []
      · rw [if_pos hA] at h
        cases h
        refine ⟨fun c hc => hpop c (Or.inr hc), ?_⟩
        intro p hp c hprod hcons
        exact hpop c (Or.inl (hfrontEv p hp c hprod hcons))
      · rw [if_neg hA] at h
        rcases hrec : sortLoop xforms fuel st'.nextFrontier st' with
          ⟨rest', colls'⟩ | e'' | c0
        rotate_left
        · rw [hrec] at h; cases h
        · rw [hrec] at h; cases h
        rw [hrec] at h
        cases h
        obtain ⟨ihKeep, ihDrain⟩ := ih _ _ _ _ hrec
        refine ⟨fun c hc => ihKeep c (hpop c (Or.inr hc)), ?_⟩
        intro p hp c hprod hcons
        rcases List.mem_append.1 hp with hp | hp
        · exact ihKeep c (hpop c (Or.inl (hfrontEv p hp c hprod hcons)))
        · exact ihDrain p hp c hprod hcons

/-! ### Top-level properties of the sorter -/

theorem rootIds_nodup {b : BundleDescriptor}
    (hnd : (b.transforms.map Prod.fst).Nodup) : (rootIds b).Nodup := by
  rw [rootIds]
  exact ((List.filter_sublist _).map Prod.fst).nodup hnd

theorem rootIds_sub {b : BundleDescriptor} :
    ∀ k ∈ rootIds b, k ∈ b.transforms.map Prod.fst := by
  intro k hk
  obtain ⟨e, he, rfl, _⟩ := mem_rootIds_iff.1 hk
  exact List.mem_map.2 ⟨e, he, rfl⟩

theorem rootIds_adjs {b : BundleDescriptor}
    (hnd : (b.transforms.map Prod.fst).Nodup) :
    ∀ k ∈ rootIds b, initAdjs b k ≤ 0 := by
  intro k hk
  obtain ⟨e, he, rfl, hlen⟩ := mem_rootIds_iff.1 hk
  rw [initAdjs, lookup_entry_of_mem hnd e he]
  simp [hlen]

theorem perm_of_nodup_sub_length {out keys : List TId} (hnd : out.Nodup)
    (hsub : ∀ k ∈ out, k ∈ keys)
    (hlen : out.length = keys.length) : List.Perm out keys := by
  obtain ⟨l, hlp, hls⟩ := List.subperm_of_subset hnd hsub
  have hleq : l = keys := by
    refine hls.eq_of_length ?_
    rw [hlp.length_eq, hlen]
  rw [← hleq]
  exact hlp.symm

/-- A successful sort returns a permutation of the declared transform
ids. -/
theorem topologicalSort_perm {b : BundleDescriptor}
    (hnd : (b.transforms.map Prod.fst).Nodup) {ids : List TId}
    {colls : CId → Option PCollInfo}
    (h : topologicalSort b = .ok (ids, colls)) :
    List.Perm ids (b.transforms.map Prod.fst) := by
  rw [topologicalSort] at h
  by_cases hz : b.transforms.length = 0
  · rw [if_pos hz] at h; cases h
  · rw [if_neg hz] at h
    rcases hsl : sortLoop b.transforms (b.transforms.length + 1) (rootIds b)
        { adjs := initAdjs b, colls := initColls b, nextFrontier := [] }
      with ⟨out, colls'⟩ | e | c <;> rw [hsl] at h
    rotate_left
    · cases h
    · cases h
    simp only at h
    by_cases hlen : out.length = b.transforms.length
    · rw [if_pos hlen] at h
      cases h
      obtain ⟨hond, hosub, _⟩ :=
        sortLoop_good b.transforms _ _ _ _ _ hsl (rootIds_nodup hnd)
          rootIds_sub (rootIds_adjs hnd)
      exact perm_of_nodup_sub_length hond hosub
        (by rw [hlen, List.length_map])
    · rw [if_neg hlen] at h
      cases h

/-- An ordered successful run admits no dependency cycle. -/
theorem ordered_no_cycle {xforms : List (TId × PTransform)} {ids : List TId}
    (hkeys : ∀ k ∈ xforms.map Prod.fst, k ∈ ids)
    (hord : ∀ p k, 0 < decFromI xforms p k → k ∈ ids →
      p ∈ ids ∧ ids.indexOf p < ids.indexOf k) :
    ∀ x, ¬ Relation.TransGen (depends xforms) x x := by
  have hmemk : ∀ a b, depends xforms a b → b ∈ ids := by
    rintro a b ⟨c, _, tk, hk, _⟩
    exact hkeys b (mem_keys_of_lookup_isSome (by rw [hk]; rfl))
  have hchain : ∀ a b, Relation.TransGen (depends xforms) a b →
      a ∈ ids ∧ ids.indexOf a < ids.indexOf b := by
    intro a b h
    induction h with
    | single hab =>
        exact hord _ _ ((depends_iff_decFromI_pos _ _ _).1 hab)
          (hmemk _ _ hab)
    | tail _ hbc ihab =>
        have h2 := hord _ _ ((depends_iff_decFromI_pos _ _ _).1 hbc)
          (hmemk _ _ hbc)
        exact ⟨ihab.1, ihab.2.trans h2.2⟩
  intro x hx
  exact absurd (hchain x x hx).2 (lt_irrefl _)

/-- Soundness of the sorter on well-formed acyclic descriptors: it
succeeds, returns every transform id exactly once, and places every
transform after all producers of its inputs. -/
theorem topologicalSort_sound {b : BundleDescriptor} (hWF : SortWF b)
    (hne : b.transforms ≠ []) (hacy : Acyclic b.transforms) :
    ∃ ids colls, topologicalSort b = .ok (ids, colls) ∧
      List.Perm ids (b.transforms.map Prod.fst) ∧
      ∀ p k, depends b.transforms p k → ids.indexOf p < ids.indexOf k := by
  have hfuel : ∀ st : SortSt,
      posCount b.transforms st + 1 ≤ b.transforms.length + 1 := by
    intro st
    rw [posCount]
    have h1 := List.length_filter_le
      (fun k => decide (1 ≤ st.adjs k)) (b.transforms.map Prod.fst)
    rw [List.length_map] at h1
    omega
  obtain ⟨out, colls, hsl, hond, hosub, hord, hcomp⟩ :=
    sortLoop_inv hWF.nodupKeys hWF.uniqueProducer (b.transforms.length + 1)
      [] (rootIds b) _ (kahn_init b hWF) (hfuel _)
  simp only [List.nil_append] at hond hosub hord hcomp
  have hcov := hcomp hacy
  have hperm : List.Perm out (b.transforms.map Prod.fst) := by
    rw [List.perm_ext_iff_of_nodup hond hWF.nodupKeys]
    exact fun a => ⟨fun ha => hosub a ha, fun ha => hcov a ha⟩
  refine ⟨out, colls, ?_, hperm, ?_⟩
  · rw [topologicalSort,
      if_neg (fun hz => hne (List.length_eq_zero.1 hz)), hsl]
    simp only
    rw [if_pos (by rw [hperm.length_eq, List.length_map])]
  · intro p k hdep
    have hk : k ∈ out := by
      obtain ⟨c, _, tk, hkk, _⟩ := hdep
      exact hcov k (mem_keys_of_lookup_isSome (by rw [hkk]; rfl))
    exact (hord p k ((depends_iff_decFromI_pos _ _ _).1 hdep) hk).2

/-- On a well-formed descriptor containing a dependency cycle, the sorter
returns `bundleHasCycle`. -/
theorem topologicalSort_cycle {b : BundleDescriptor} (hWF : SortWF b)
    (hcyc : ∃ x, Relation.TransGen (depends b.transforms) x x) :
    topologicalSort b = .fail .bundleHasCycle := by
  obtain ⟨x, hx⟩ := hcyc
  have hxk : x ∈ b.transforms.map Prod.fst := by
    have hlast : ∃ a, depends b.transforms a x := by
      cases hx with
      | single h => exact ⟨x, h⟩
      | tail _ h => exact ⟨_, h⟩
    obtain ⟨a, c, _, tk, hk, _⟩ := hlast
    exact mem_keys_of_lookup_isSome (by rw [hk]; rfl)
  have hne : b.transforms ≠ [] := by
    intro hemp
    rw [hemp] at hxk
    cases hxk
  have hfuel : ∀ st : SortSt,
      posCount b.transforms st + 1 ≤ b.transforms.length + 1 := by
    intro st
    rw [posCount]
    have h1 := List.length_filter_le
      (fun k => decide (1 ≤ st.adjs k)) (b.transforms.map Prod.fst)
    rw [List.length_map] at h1
    omega
  obtain ⟨out, colls, hsl, hond, hosub, hord, _⟩ :=
    sortLoop_inv hWF.nodupKeys hWF.uniqueProducer (b.transforms.length + 1)
      [] (rootIds b) _ (kahn_init b hWF) (hfuel _)
  simp only [List.nil_append] at hond hosub hord
  rw [topologicalSort, if_neg (fun hz => hne (List.length_eq_zero.1 hz)), hsl]
  simp only
  by_cases hlen : out.length = b.transforms.length
  · exfalso
    have hperm : List.Perm out (b.transforms.map Prod.fst) :=
      perm_of_nodup_sub_length hond hosub
        (by rw [hlen, List.length_map])
    exact ordered_no_cycle (fun k hk => hperm.symm.subset hk) hord x hx
  · rw [if_neg hlen]

/-- The sorter returns `rootlessBundle` exactly on descriptors declaring
no transforms. -/
theorem topologicalSort_rootless_iff (b : BundleDescriptor) :
    topologicalSort b = .fail .rootlessBundle ↔ b.transforms = [] := by
  constructor
  · intro h
    by_contra hne
    rw [topologicalSort,
      if_neg (fun hz => hne (List.length_eq_zero.1 hz))] at h
    rcases hsl : sortLoop b.transforms (b.transforms.length + 1) (rootIds b)
        { adjs := initAdjs b, colls := initColls b, nextFrontier := [] }
      with ⟨out, colls'⟩ | e | c <;> rw [hsl] at h
    · simp only at h
      by_cases hlen : out.length = b.transforms.length
      · rw [if_pos hlen] at h; cases h
      · rw [if_neg hlen] at h; cases h
    · exact sortLoop_no_fail b.transforms _ _ _ _ hsl
    · cases h
  · intro h
    rw [topologicalSort, if_pos (by rw [h]; rfl)]

/-- A descriptor with at least one transform but no root transform is
rejected by the cycle check, not the rootless check. -/
theorem topologicalSort_no_roots {b : BundleDescriptor}
    (hne : b.transforms ≠ [])
    (hnoroot : ∀ e ∈ b.transforms, e.2.inputs ≠ []) :
    topologicalSort b = .fail .bundleHasCycle := by
  have hroots : rootIds b = [] := by
    rw [rootIds]
    rw [List.filter_eq_nil_iff.2 fun e he => ?_]
    · rfl
    · rw [decide_eq_true_eq]
      intro hlen
      exact hnoroot e he (List.length_eq_zero.1 hlen)
  rw [topologicalSort, if_neg (fun hz => hne (List.length_eq_zero.1 hz)),
    hroots]
  rw [sortLoop]
  have hpr : processRound b.transforms []
      { adjs := initAdjs b, colls := initColls b, nextFrontier := [] } =
      .ok { adjs := initAdjs b, colls := initColls b, nextFrontier := [] } := by
    rw [processRound]
    simp
  rw [hpr]
  simp only [eq_self_iff_true, if_true, ite_true]
  rw [if_neg (fun hz : ([] : List TId).length = b.transforms.length =>
    hne (List.length_eq_zero.1 (by simpa using hz.symm)))]

/-! ### Properties of the graph builder -/

/-- Every node created by the output-creation loop carries the window
strategy passed to it. -/
theorem linkOutLoop_windows (coders : List (String × Coder)) (w : Windowing) :
    ∀ (l : List (outputB × Outbound)) (g : Graph) (nodes : NodeMap)
      (g' : Graph) (nodes' : NodeMap) (obs : List Outbound),
      linkOutLoop coders w g nodes l = .ok (g', nodes', obs) →
      ∀ ob ∈ obs, ∃ n : Node, ob.To = some n ∧ n.window = w := by
  intro l
  induction l with
  | nil =>
      intro g nodes g' nodes' obs h ob hob
      rw [linkOutLoop] at h
      cases h
      cases hob
  | cons tb l ih =>
      intro g nodes g' nodes' obs h ob hob
      rw [linkOutLoop] at h
      rcases hcl : coderLookup coders tb.1.Coder with c | e | cr <;>
        rw [hcl] at h
      rotate_left
      · cases h
      · cases h
      simp only [Res.bind_ok] at h
      rcases hrec : linkOutLoop coders w
          (g.newNode c.T w c).1
          (fun k => if k = tb.1.NodeID then some (g.newNode c.T w c).2
            else nodes k) l
        with ⟨g2, nodes2, obs2⟩ | e | cr <;> rw [hrec] at h
      rotate_left
      · cases h
      · cases h
      simp only [Res.bind_ok] at h
      cases h
      rcases List.mem_cons.1 hob with rfl | hob2
      · exact ⟨(g.newNode c.T w c).2, rfl, rfl⟩
      · exact ih _ _ _ _ _ hrec ob hob2

/-- `linkOutbound` gives every created output node the global window
strategy when the edge has no inputs, and the window strategy of the
first input's `From` node otherwise. -/
theorem linkOutbound_window_spec {g : Graph} {nodes : NodeMap}
    {coders : List (String × Coder)} {transform : PTransform} {tid : TId}
    {edge : MultiEdge} {colls : CId → Option PCollInfo} {g' : Graph}
    {nodes' : NodeMap} {edge' : MultiEdge}
    (h : linkOutbound g nodes coders transform tid edge colls =
      .ok (g', nodes', edge')) :
    (edge.input = [] →
      ∀ ob ∈ edge'.output, ∃ n : Node, ob.To = some n ∧
        n.window = Windowing.global)
    ∧ (∀ ib rest, edge.input = ib :: rest →
        ∃ n0 : Node, ib.From = some n0 ∧
          ∀ ob ∈ edge'.output, ∃ n : Node, ob.To = some n ∧
            n.window = n0.window) := by
  rw [linkOutbound] at h
  rcases hto : translateOutputs transform tid colls with resolved | e | cr <;>
    rw [hto] at h
  rotate_left
  · cases h
  · cases h
  simp only [Res.bind_ok] at h
  by_cases hlen : resolved.length = edge.output.length
  · rw [if_pos hlen] at h
    rcases hinp : edge.input with _ | ⟨ib, rest⟩ <;> rw [hinp] at h <;>
      simp only at h
    · simp only [Res.bind_ok, Res.pure_eq_ok] at h
      rcases hll : linkOutLoop coders Windowing.global g nodes
          (resolved.zip edge.output) with ⟨g2, nodes2, obs⟩ | e | cr <;>
        rw [hll] at h
      rotate_left
      · cases h
      · cases h
      simp only [Res.bind_ok] at h
      cases h
      constructor
      · intro _ ob hob
        exact linkOutLoop_windows coders Windowing.global _ _ _ _ _ _ hll ob hob
      · intro ib rest hcontr
        cases hcontr
    · rcases hfrom : ib.From with _ | n0 <;> rw [hfrom] at h
      · simp at h
      · simp only [Res.bind_ok, Res.pure_eq_ok] at h
        rcases hll : linkOutLoop coders n0.window g nodes
            (resolved.zip edge.output) with ⟨g2, nodes2, obs⟩ | e | cr <;>
          rw [hll] at h
        rotate_left
        · cases h
        · cases h
        simp only [Res.bind_ok] at h
        cases h
        constructor
        · intro hcontr
          cases hcontr
        · rintro ib' rest' heq
          cases heq
          refine ⟨n0, hfrom, fun ob hob => ?_⟩
          exact linkOutLoop_windows coders n0.window _ _ _ _ _ _ hll ob hob
  · rw [if_neg hlen] at h
    cases h

/-- The dispatch rejects a transform whose kind tag matches none of the
four recognized urns, formatting the transform's spec — not its id —
into the error. -/
theorem translateOne_unknown_urn (coders : List (String × Coder))
    (colls : CId → Option PCollInfo) (st : Graph × NodeMap) (id : TId)
    (transform : PTransform)
    (h1 : transform.spec.urn ≠ urnJavaSource)
    (h2 : transform.spec.urn ≠ urnJavaDoFn)
    (h3 : transform.spec.urn ≠ urnRunnerSource)
    (h4 : transform.spec.urn ≠ urnRunnerSink) :
    translateOne coders colls st id transform =
      .fail (.unknownOpcode transform.spec) := by
  simp only [translateOne]
  rw [if_neg h1, if_neg h2, if_neg h3, if_neg h4]

/-- A remote-source transform with a decodable endpoint payload and an
output count other than one is rejected with the expected-1-outputs
error, carrying the actual count. -/
theorem translateOne_source_arity (coders : List (String × Coder))
    (colls : CId → Option PCollInfo) (st : Graph × NodeMap) (id : TId)
    (transform : PTransform) (url : String)
    (hurn : transform.spec.urn = urnRunnerSource)
    (hpay : transform.spec.payload = .portPayload url)
    (hn : transform.outputs.length ≠ 1) :
    translateOne coders colls st id transform =
      .fail (.expectedOneOutput transform.outputs.length) := by
  simp only [translateOne, hurn, hpay, translatePort, Res.bind_ok]
  simp only [show (urnRunnerSource = urnJavaSource) = False from eq_false (by decide),
    show (urnRunnerSource = urnJavaDoFn) = False from eq_false (by decide),
    if_false, ite_true, ite_false, if_true, eq_self_iff_true]
  rw [if_neg hn]

/-- A remote-sink transform with a decodable endpoint payload and an
input count other than one is rejected with the expected-1-inputs error,
carrying the actual count. -/
theorem translateOne_sink_arity (coders : List (String × Coder))
    (colls : CId → Option PCollInfo) (st : Graph × NodeMap) (id : TId)
    (transform : PTransform) (url : String)
    (hurn : transform.spec.urn = urnRunnerSink)
    (hpay : transform.spec.payload = .portPayload url)
    (hn : transform.inputs.length ≠ 1) :
    translateOne coders colls st id transform =
      .fail (.expectedOneInput transform.inputs.length) := by
  simp only [translateOne, hurn, hpay, translatePort, Res.bind_ok]
  simp only [show (urnRunnerSink = urnJavaSource) = False from eq_false (by decide),
    show (urnRunnerSink = urnJavaDoFn) = False from eq_false (by decide),
    show (urnRunnerSink = urnRunnerSource) = False from eq_false (by decide),
    if_false, ite_true, ite_false, if_true, eq_self_iff_true]
  rw [if_neg hn]

/-- In the second legacy dispatch arm, a decoded operation code other
than ParDo or Combine aborts with the opcode panic rather than an error
return. -/
theorem translateOne_dofn_panic (coders : List (String × Coder))
    (colls : CId → Option PCollInfo) (st : Graph × NodeMap) (id : TId)
    (transform : PTransform) (op : Opcode) (fn : Fn) (ins outs : List Ty)
    (hurn : transform.spec.urn = urnJavaDoFn)
    (hpay : transform.spec.payload = .fnPayload op fn ins outs)
    (hop1 : op ≠ .parDo) (hop2 : op ≠ .combine) :
    translateOne coders colls st id transform =
      .crash (.opcodePanic op) := by
  simp only [translateOne, hurn, hpay, decodeMultiEdge, Res.bind_ok]
  simp only [show (urnJavaDoFn = urnJavaSource) = False from eq_false (by decide),
    if_false, ite_true, ite_false, if_true, eq_self_iff_true]
  cases op with
  | parDo => exact absurd rfl hop1
  | combine => exact absurd rfl hop2
  | dataSource => rfl
  | dataSink => rfl
  | flatten => rfl
  | external => rfl

/-- In the second legacy dispatch arm, ParDo and Combine codes proceed to
binding resolution with the adapted function attached. -/
theorem translateOne_dofn_binds (coders : List (String × Coder))
    (colls : CId → Option PCollInfo) (st : Graph × NodeMap) (id : TId)
    (transform : PTransform) (op : Opcode) (fn : Fn) (ins outs : List Ty)
    (hurn : transform.spec.urn = urnJavaDoFn)
    (hpay : transform.spec.payload = .fnPayload op fn ins outs) :
    (op = .parDo → translateOne coders colls st id transform =
      legacyLink coders colls st id transform
        { op := op, dofn := some fn,
          input := ins.map fun t => { typ := some t },
          output := outs.map fun t => { typ := some t } })
    ∧ (op = .combine → translateOne coders colls st id transform =
      legacyLink coders colls st id transform
        { op := op, combineFn := some fn,
          input := ins.map fun t => { typ := some t },
          output := outs.map fun t => { typ := some t } }) := by
  constructor <;> intro hop <;> subst hop <;>
    simp only [translateOne, hurn, hpay, decodeMultiEdge, asDoFn,
      asCombineFn, Res.bind_ok, Res.pure_eq_ok] <;>
    simp only [show (urnJavaDoFn = urnJavaSource) = False from eq_false (by decide),
      if_false, ite_true, ite_false, if_true, eq_self_iff_true]

/-- Draining a transform whose output collection is consumed by some
transform but absent from the PCollections map dereferences nil in the
provenance update. -/
theorem drainOne_missing_coll_crash {xforms : List (TId × PTransform)}
    {id : TId} {tp : PTransform} {st : SortSt} {k : TId} {tk : PTransform}
    {c : CId} (hid : List.lookup id xforms = some tp) (hc : c ∈ outVals tp)
    (hk : (k, tk) ∈ xforms) (hkc : c ∈ inVals tk)
    (hnone : st.colls c = none) :
    drainOne xforms st id = .crash .nilDeref := by
  rw [drainOne]
  refine evrun_crash xforms _ _ ⟨(id, k, c), ?_, hnone⟩
  refine mem_drainEvents.2 ⟨rfl, ?_, (k, tk), hk, rfl, hkc⟩
  rw [hid]
  exact hc

/-- After a successful sort, every collection that some transform
consumes and some transform produces has its provenance record populated
with a producer. -/
theorem topologicalSort_provenance {b : BundleDescriptor}
    (hnd : (b.transforms.map Prod.fst).Nodup) {ids : List TId}
    {colls : CId → Option PCollInfo}
    (h : topologicalSort b = .ok (ids, colls)) :
    ∀ c, (∃ ct ∈ b.transforms, c ∈ inVals ct.2) →
      (∃ p, producesTo b.transforms p c) →
      PopulatedProducer b.transforms colls c := by
  have hperm := topologicalSort_perm hnd h
  rw [topologicalSort] at h
  by_cases hz : b.transforms.length = 0
  · rw [if_pos hz] at h; cases h
  · rw [if_neg hz] at h
    rcases hsl : sortLoop b.transforms (b.transforms.length + 1) (rootIds b)
        { adjs := initAdjs b, colls := initColls b, nextFrontier := [] }
      with ⟨out, colls'⟩ | e | c0 <;> rw [hsl] at h
    rotate_left
    · cases h
    · cases h
    simp only at h
    by_cases hlen : out.length = b.transforms.length
    · rw [if_pos hlen] at h
      cases h
      rintro c hcons ⟨p, hprod⟩
      have hpids : p ∈ ids := by
        obtain ⟨tp, hp, _⟩ := hprod
        exact hperm.symm.subset
          (mem_keys_of_lookup_isSome (by rw [hp]; rfl))
      exact (sortLoop_popProd b.transforms _ _ _ _ _ hsl).2 p hpids c hprod
        hcons
    · rw [if_neg hlen] at h
      cases h

/-- A dependency-free descriptor (no transform declares any output). -/
theorem acyclic_of_no_outputs {xforms : List (TId × PTransform)}
    (h : ∀ e ∈ xforms, outVals e.2 = []) :
    ∀ x, ¬ Relation.TransGen (depends xforms) x x := by
  have hnd : ∀ p k, ¬ depends xforms p k := by
    rintro p k ⟨c, ⟨tp, hp, hc⟩, _⟩
    rw [h (p, tp) (mem_of_lookup_eq_some hp)] at hc
    cases hc
  intro x hx
  cases hx with
  | single hd => exact hnd _ _ hd
  | tail _ hd => exact hnd _ _ hd

/-! ### Concrete instances used by the claim theorems -/

/-- A PCollection entry referencing coder id "k". -/
def pcK : PColl := { coderId := "k" }

/-- A spec with an unrecognized kind tag and undecodable payload. -/
def specX : FunctionSpec := { urn := "x", payload := .blob 0 }

/-- One transform consuming a collection that nothing produces. -/
def dDangling : BundleDescriptor :=
  { transforms := [("a", { spec := specX, inputs := [("i", "c")] })],
    pcollections := [("c", pcK)] }

/-- One root transform with no inputs and no outputs. -/
def dSingle : BundleDescriptor :=
  { transforms := [("a", { spec := specX })] }

/-- One transform producing a collection that nothing consumes. -/
def dUnconsumed : BundleDescriptor :=
  { transforms := [("a", { spec := specX, outputs := [("o", "c")] })],
    pcollections := [("c", pcK)] }

/-- A two-transform chain: "a" produces "c", "b" consumes it. -/
def dChainT : BundleDescriptor :=
  { transforms := [("a", { spec := specX, outputs := [("o", "c")] }),
                   ("b", { spec := specX, inputs := [("i", "c")] })],
    pcollections := [("c", pcK)] }

/-- Cyclic pair: "a" and "b" feed each other, plus a second producer "r"
of "a"'s input, letting the sorter drain the cycle anyway. -/
def trR : PTransform := { spec := specX, outputs := [("o", "y")] }

/-- The "a" member of the cyclic pair. -/
def trA : PTransform :=
  { spec := specX, inputs := [("i", "y")], outputs := [("o", "x")] }

/-- The "b" member of the cyclic pair. -/
def trB : PTransform :=
  { spec := specX, inputs := [("i", "x")], outputs := [("o", "y")] }

/-- Cycle whose collections each have two producers. -/
def dDouble : BundleDescriptor :=
  { transforms := [("r", trR), ("a", trA), ("b", trB)],
    pcollections := [("x", pcK), ("y", pcK)] }

/-- A pure two-cycle with uniquely produced collections. -/
def dCyc : BundleDescriptor :=
  { transforms := [("a", trA), ("b", trB)],
    pcollections := [("x", pcK), ("y", pcK)] }

/-- Two transforms whose declared-output maps are equal but listed in
different iteration orders. -/
def tOut1 : PTransform :=
  { spec := specX, outputs := [("a", "c1"), ("b", "c2")] }

/-- The same output map as `tOut1`, iterated the other way round. -/
def tOut2 : PTransform :=
  { spec := specX, outputs := [("b", "c2"), ("a", "c1")] }

/-- Provenance map for the order-instability example. -/
def collsO : CId → Option PCollInfo :=
  fun c =>
    if c = "c1" then some { pcoll := { coderId := "k1" } }
    else if c = "c2" then some { pcoll := { coderId := "k2" } } else none

/-- A transform with an unrecognized kind tag. -/
def tBadUrn : PTransform := { spec := { urn := "weird", payload := .blob 0 } }

/-- Descriptor with one unknown-kind transform named "t1". -/
def dBad1 : BundleDescriptor := { transforms := [("t1", tBadUrn)] }

/-- The same unknown-kind transform under the id "t2". -/
def dBad2 : BundleDescriptor := { transforms := [("t2", tBadUrn)] }

/-- Remote-source transform declaring two outputs. -/
def tSrc2 : PTransform :=
  { spec := { urn := urnRunnerSource, payload := .portPayload "u" },
    outputs := [("o1", "c1"), ("o2", "c2")] }

/-- Remote-sink transform declaring two inputs. -/
def tSink2 : PTransform :=
  { spec := { urn := urnRunnerSink, payload := .portPayload "u" },
    inputs := [("i1", "c1"), ("i2", "c2")] }

/-- Legacy-dofn transform whose payload decodes to a Flatten opcode. -/
def tDoFnBad : PTransform :=
  { spec := { urn := urnJavaDoFn, payload := .fnPayload .flatten "f" [] [] } }

/-- Legacy-dofn transform whose payload decodes to a ParDo opcode. -/
def tDoFnPar : PTransform :=
  { spec := { urn := urnJavaDoFn, payload := .fnPayload .parDo "f" [] [] } }

/-- Transform consuming a collection missing from the PCollections map. -/
def dMissInput : BundleDescriptor :=
  { transforms := [("a", { spec := specX, inputs := [("i", "c")] })] }

/-- Producer/consumer pair wired through a collection missing from the
PCollections map. -/
def dMissBoth : BundleDescriptor :=
  { transforms := [("a", { spec := specX, outputs := [("o", "c")] }),
                   ("b", { spec := specX, inputs := [("i", "c")] })] }

/-- Producing transform used by the window-propagation example. -/
def tProdC : PTransform := { spec := specX, outputs := [("o", "c")] }

/-- Provenance map of the window-propagation example. -/
def collsW : CId → Option PCollInfo :=
  fun c => if c = "c" then some { pcoll := pcK } else none

/-- An input-less edge with one output slot. -/
def edgeW : MultiEdge := { op := .parDo, output := [{}] }

/-! ### Claims -/

/-- C1 (amended): for every bundle descriptor with at least one
transform, with unique transform ids, in which every input collection of
every transform is registered in the PCollections map and produced by
exactly one output slot of exactly one transform, if the transform
dependency graph is acyclic then `topologicalSort` succeeds and returns
a sequence containing every transform id exactly once, in which each
transform's id appears strictly after the ids of all transforms that
produce any of its input collections. -/
theorem C1_theorem (b : BundleDescriptor) (hWF : SortWF b)
    (hne : b.transforms ≠ []) (hacy : Acyclic b.transforms) :
    ∃ ids colls, topologicalSort b = .ok (ids, colls) ∧
      List.Perm ids (b.transforms.map Prod.fst) ∧
      ∀ p k, depends b.transforms p k → ids.indexOf p < ids.indexOf k :=
  topologicalSort_sound hWF hne hacy

/-- C1 counterexample: a descriptor whose transform consumes a
collection no transform produces has an acyclic (indeed empty)
dependency graph, yet `topologicalSort` fails with `bundleHasCycle`
instead of succeeding. -/
theorem C1_counterexample :
    (∀ x, ¬ Relation.TransGen (depends dDangling.transforms) x x) ∧
      topologicalSort dDangling = .fail .bundleHasCycle :=
  ⟨acyclic_of_no_outputs (by decide), rfl⟩

/-- C1 witness: the amended theorem applied to a one-root descriptor. -/
theorem C1_witness :
    ∃ ids colls, topologicalSort dSingle = .ok (ids, colls) ∧
      List.Perm ids (dSingle.transforms.map Prod.fst) ∧
      ∀ p k, depends dSingle.transforms p k →
        ids.indexOf p < ids.indexOf k :=
  C1_theorem dSingle ⟨by decide, by decide, by decide⟩ (by decide)
    (acyclic_of_no_outputs (by decide))

/-- C2: for every successfully resolved edge, every output node created
by `linkOutbound` carries the global default window strategy when the
edge has no inputs, and the window strategy of the first input's `From`
node otherwise. -/
theorem C2_theorem {g : Graph} {nodes : NodeMap}
    {coders : List (String × Coder)} {transform : PTransform} {tid : TId}
    {edge : MultiEdge} {colls : CId → Option PCollInfo} {g' : Graph}
    {nodes' : NodeMap} {edge' : MultiEdge}
    (h : linkOutbound g nodes coders transform tid edge colls =
      .ok (g', nodes', edge')) :
    (edge.input = [] →
      ∀ ob ∈ edge'.output, ∃ n : Node, ob.To = some n ∧
        n.window = Windowing.global)
    ∧ (∀ ib rest, edge.input = ib :: rest →
        ∃ n0 : Node, ib.From = some n0 ∧
          ∀ ob ∈ edge'.output, ∃ n : Node, ob.To = some n ∧
            n.window = n0.window) :=
  linkOutbound_window_spec h

/-- C2 witness: the theorem applied to a concrete input-less edge. -/
theorem C2_witness :
    ∃ g' nodes' edge',
      linkOutbound {} (fun _ => none) [("k", { T := "ty" })] tProdC "t"
        edgeW collsW = .ok (g', nodes', edge')
      ∧ ((edgeW.input = [] →
          ∀ ob ∈ MultiEdge.output edge', ∃ n : Node, ob.To = some n ∧
            n.window = Windowing.global)
        ∧ (∀ ib rest, edgeW.input = ib :: rest →
            ∃ n0 : Node, ib.From = some n0 ∧
              ∀ ob ∈ MultiEdge.output edge', ∃ n : Node, ob.To = some n ∧
                n.window = n0.window)) :=
  ⟨_, _, _, rfl,
   @C2_theorem {} (fun _ => none) [("k", { T := "ty" })] tProdC "t" edgeW
     collsW _ _ _ rfl⟩

/-- C3 (amended): after a successful `topologicalSort` on a descriptor
with unique transform ids, every collection that appears as an input of
some transform and as an output of some transform has its provenance
record populated with a producing transform id and transform; an output
collection that no transform consumes is left unpopulated. -/
theorem C3_theorem {b : BundleDescriptor}
    (hnd : (b.transforms.map Prod.fst).Nodup) {ids : List TId}
    {colls : CId → Option PCollInfo}
    (h : topologicalSort b = .ok (ids, colls)) :
    ∀ c, (∃ ct ∈ b.transforms, c ∈ inVals ct.2) →
      (∃ p, producesTo b.transforms p c) →
      PopulatedProducer b.transforms colls c :=
  topologicalSort_provenance hnd h

/-- C3 counterexample: a collection that is an output of a transform but
consumed by nobody keeps its zero-valued provenance record (empty
producing id, no producing transform) after a successful sort. -/
theorem C3_counterexample :
    producesTo dUnconsumed.transforms "a" "c" ∧
      ∃ ids colls, topologicalSort dUnconsumed = .ok (ids, colls) ∧
        colls "c" = some { xid := "", xform := none, pcoll := pcK } :=
  ⟨⟨{ spec := specX, outputs := [("o", "c")] }, rfl, by decide⟩,
   _, _, rfl, rfl⟩

/-- C3 witness: the amended theorem applied to a two-transform chain. -/
theorem C3_witness :
    ∃ ids colls, topologicalSort dChainT = .ok (ids, colls) ∧
      PopulatedProducer dChainT.transforms colls "c" :=
  ⟨_, _, rfl,
    @C3_theorem dChainT (by decide) _ _ rfl "c" (by decide)
      ⟨"a", { spec := specX, outputs := [("o", "c")] }, rfl, by decide⟩⟩

/-- C4: output binding order is not deterministic over the declared
output map: two transforms with equal output maps, iterated in different
orders, are bound to different positional output lists (the source has a
TODO acknowledging the missing reorder). -/
theorem C4_theorem :
    List.Perm tOut1.outputs tOut2.outputs ∧
      translateOutputs tOut1 "t" collsO ≠ translateOutputs tOut2 "t" collsO := by
  constructor
  · decide
  · decide

/-- C5 (amended): a transform whose kind tag is none of the four
recognized urns makes the dispatch fail with the unknown-kind error,
whose message references the offending transform's spec (kind tag and
payload) — not its id. -/
theorem C5_theorem (coders : List (String × Coder))
    (colls : CId → Option PCollInfo) (st : Graph × NodeMap) (id : TId)
    (transform : PTransform)
    (h1 : transform.spec.urn ≠ urnJavaSource)
    (h2 : transform.spec.urn ≠ urnJavaDoFn)
    (h3 : transform.spec.urn ≠ urnRunnerSource)
    (h4 : transform.spec.urn ≠ urnRunnerSink) :
    translateOne coders colls st id transform =
      .fail (.unknownOpcode transform.spec) :=
  translateOne_unknown_urn coders colls st id transform h1 h2 h3 h4

/-- C5 counterexample: two descriptors differing only in the offending
transform's id produce the very same unknown-kind error value, so the
error cannot reference the transform's id. -/
theorem C5_counterexample :
    dBad1.transforms.map Prod.fst ≠ dBad2.transforms.map Prod.fst ∧
      translate dBad1 = translate dBad2 ∧
      translate dBad1 =
        .fail (.unknownOpcode { urn := "weird", payload := .blob 0 }) :=
  ⟨by decide, rfl, rfl⟩

/-- C5 witness: the amended theorem applied to a concrete unknown-kind
transform. -/
theorem C5_witness :
    translateOne [] (fun _ => none) ({}, fun _ => none) "t1" tBadUrn =
      .fail (.unknownOpcode { urn := "weird", payload := .blob 0 }) :=
  C5_theorem [] (fun _ => none) ({}, fun _ => none) "t1" tBadUrn
    (by decide) (by decide) (by decide) (by decide)

/-- C6 (amended): on a descriptor with unique transform ids whose
consumed collections are registered and produced by exactly one output
slot each, a dependency cycle makes `topologicalSort` return
`bundleHasCycle`; and `bundleHasCycle` is returned exactly when the
descriptor has transforms and the drained sequence is shorter than the
number of declared transforms. -/
theorem C6_theorem (b : BundleDescriptor) (hWF : SortWF b) :
    ((∃ x, Relation.TransGen (depends b.transforms) x x) →
      topologicalSort b = .fail .bundleHasCycle)
    ∧ (topologicalSort b = .fail .bundleHasCycle ↔
        (b.transforms ≠ [] ∧
          ∃ out colls,
            sortLoop b.transforms (b.transforms.length + 1) (rootIds b)
              { adjs := initAdjs b, colls := initColls b,
                nextFrontier := [] } = .ok (out, colls) ∧
            out.length < b.transforms.length)) := by
  have hfuel : ∀ st : SortSt,
      posCount b.transforms st + 1 ≤ b.transforms.length + 1 := by
    intro st
    rw [posCount]
    have h1 := List.length_filter_le
      (fun k => decide (1 ≤ st.adjs k)) (b.transforms.map Prod.fst)
    rw [List.length_map] at h1
    omega
  refine ⟨topologicalSort_cycle hWF, ?_, ?_⟩
  · intro h
    have hne : b.transforms ≠ [] := by
      intro hemp
      rw [(topologicalSort_rootless_iff b).2 hemp] at h
      cases h
    obtain ⟨out, colls, hsl, hond, hosub, _, _⟩ :=
      sortLoop_inv hWF.nodupKeys hWF.uniqueProducer (b.transforms.length + 1)
        [] (rootIds b) _ (kahn_init b hWF) (hfuel _)
    simp only [List.nil_append] at hond hosub
    refine ⟨hne, out, colls, hsl, ?_⟩
    have hle : out.length ≤ b.transforms.length := by
      have := (List.subperm_of_subset hond hosub).length_le
      rw [List.length_map] at this
      exact this
    rw [topologicalSort,
      if_neg (fun hz => hne (List.length_eq_zero.1 hz)), hsl] at h
    simp only at h
    by_cases hlen : out.length = b.transforms.length
    · rw [if_pos hlen] at h; cases h
    · omega
  · rintro ⟨hne, out, colls, hsl, hlt⟩
    rw [topologicalSort,
      if_neg (fun hz => hne (List.length_eq_zero.1 hz)), hsl]
    simp only
    rw [if_neg (by omega)]

/-- C6 counterexample: a descriptor in which transforms "a" and "b" feed
each other (a genuine dependency cycle) but whose cycle collections have
a second producer sorts successfully instead of failing. -/
theorem C6_counterexample :
    Relation.TransGen (depends dDouble.transforms) "a" "a" ∧
      ∃ colls, topologicalSort dDouble = .ok (["r", "a", "b"], colls) := by
  constructor
  · have hab : depends dDouble.transforms "a" "b" :=
      ⟨"x", ⟨trA, rfl, by decide⟩, ⟨trB, rfl, by decide⟩⟩
    have hba : depends dDouble.transforms "b" "a" :=
      ⟨"y", ⟨trB, rfl, by decide⟩, ⟨trA, rfl, by decide⟩⟩
    exact Relation.TransGen.tail (Relation.TransGen.single hab) hba
  · exact ⟨_, rfl⟩

/-- C6 witness: the amended theorem applied to a uniquely produced
two-cycle. -/
theorem C6_witness :
    ((∃ x, Relation.TransGen (depends dCyc.transforms) x x) →
      topologicalSort dCyc = .fail .bundleHasCycle)
    ∧ (topologicalSort dCyc = .fail .bundleHasCycle ↔
        (dCyc.transforms ≠ [] ∧
          ∃ out colls,
            sortLoop dCyc.transforms (dCyc.transforms.length + 1)
              (rootIds dCyc)
              { adjs := initAdjs dCyc, colls := initColls dCyc,
                nextFrontier := [] } = .ok (out, colls) ∧
            out.length < dCyc.transforms.length)) :=
  C6_theorem dCyc ⟨by decide, by decide, by decide⟩

/-- C7: `topologicalSort` returns `rootlessBundle` exactly when the
descriptor declares zero transforms; a descriptor with at least one
transform, none of which has zero inputs, is instead rejected by the
cycle check. -/
theorem C7_theorem (b : BundleDescriptor) :
    (topologicalSort b = .fail .rootlessBundle ↔ b.transforms = [])
    ∧ (b.transforms ≠ [] → (∀ e ∈ b.transforms, e.2.inputs ≠ []) →
        topologicalSort b = .fail .bundleHasCycle) :=
  ⟨topologicalSort_rootless_iff b,
   fun h1 h2 => topologicalSort_no_roots h1 h2⟩

/-- C7 witness: both conjuncts exercised on concrete descriptors. -/
theorem C7_witness :
    topologicalSort { transforms := [] } = .fail .rootlessBundle ∧
      topologicalSort dMissInput = .fail .bundleHasCycle :=
  ⟨(C7_theorem { transforms := [] }).1.2 rfl,
   (C7_theorem dMissInput).2 (by decide) (by decide)⟩

/-- C8: a remote-source transform with a decodable endpoint payload
fails with the expected-one-output error (carrying the actual count)
unless it declares exactly one output; symmetrically a remote-sink
transform fails with the expected-one-input error unless it declares
exactly one input. -/
theorem C8_theorem (coders : List (String × Coder))
    (colls : CId → Option PCollInfo) (st : Graph × NodeMap) (id : TId)
    (transform : PTransform) (url : String)
    (hpay : transform.spec.payload = .portPayload url) :
    (transform.spec.urn = urnRunnerSource →
      transform.outputs.length ≠ 1 →
      translateOne coders colls st id transform =
        .fail (.expectedOneOutput transform.outputs.length))
    ∧ (transform.spec.urn = urnRunnerSink →
      transform.inputs.length ≠ 1 →
      translateOne coders colls st id transform =
        .fail (.expectedOneInput transform.inputs.length)) :=
  ⟨fun hurn hn => translateOne_source_arity coders colls st id transform
      url hurn hpay hn,
   fun hurn hn => translateOne_sink_arity coders colls st id transform
      url hurn hpay hn⟩

/-- C8 witness: a two-output source yields expected-1-got-2; a two-input
sink yields the symmetric error. -/
theorem C8_witness :
    translateOne [] (fun _ => none) ({}, fun _ => none) "s" tSrc2 =
      .fail (.expectedOneOutput 2) ∧
      translateOne [] (fun _ => none) ({}, fun _ => none) "k" tSink2 =
        .fail (.expectedOneInput 2) :=
  ⟨(C8_theorem [] (fun _ => none) ({}, fun _ => none) "s" tSrc2 "u"
      rfl).1 rfl (by decide),
   (C8_theorem [] (fun _ => none) ({}, fun _ => none) "k" tSink2 "u"
      rfl).2 rfl (by decide)⟩

/-- C9: in the second legacy dispatch arm, an operation code outside
ParDo and Combine aborts with the opcode panic (a crash, not an error
return), while ParDo and Combine proceed to binding resolution with the
corresponding adapted function attached. -/
theorem C9_theorem (coders : List (String × Coder))
    (colls : CId → Option PCollInfo) (st : Graph × NodeMap) (id : TId)
    (transform : PTransform) (op : Opcode) (fn : Fn) (ins outs : List Ty)
    (hurn : transform.spec.urn = urnJavaDoFn)
    (hpay : transform.spec.payload = .fnPayload op fn ins outs) :
    (op ≠ .parDo → op ≠ .combine →
      translateOne coders colls st id transform =
        .crash (.opcodePanic op))
    ∧ (op = .parDo →
      translateOne coders colls st id transform =
        legacyLink coders colls st id transform
          { op := op, dofn := some fn,
            input := ins.map fun t => { typ := some t },
            output := outs.map fun t => { typ := some t } })
    ∧ (op = .combine →
      translateOne coders colls st id transform =
        legacyLink coders colls st id transform
          { op := op, combineFn := some fn,
            input := ins.map fun t => { typ := some t },
            output := outs.map fun t => { typ := some t } }) :=
  ⟨fun h1 h2 => translateOne_dofn_panic coders colls st id transform op fn
      ins outs hurn hpay h1 h2,
   (translateOne_dofn_binds coders colls st id transform op fn ins outs
      hurn hpay).1,
   (translateOne_dofn_binds coders colls st id transform op fn ins outs
      hurn hpay).2⟩

/-- C9 witness: a Flatten code panics; a ParDo code proceeds to the
DoFn-bound binding path. -/
theorem C9_witness :
    translateOne [] (fun _ => none) ({}, fun _ => none) "t" tDoFnBad =
      .crash (.opcodePanic .flatten) ∧
      translateOne [] (fun _ => none) ({}, fun _ => none) "t" tDoFnPar =
        legacyLink [] (fun _ => none) ({}, fun _ => none) "t" tDoFnPar
          { op := .parDo, dofn := some "f", input := [], output := [] } :=
  ⟨(C9_theorem [] (fun _ => none) ({}, fun _ => none) "t" tDoFnBad
      .flatten "f" [] [] rfl rfl).1 (by decide) (by decide),
   (C9_theorem [] (fun _ => none) ({}, fun _ => none) "t" tDoFnPar
      .parDo "f" [] [] rfl rfl).2.1 rfl⟩

/-- C10 (amended): a collection absent from the PCollections map causes
the nil-pointer crash only when the reference is exercised: draining a
transform that outputs the missing collection while some transform
consumes it crashes in the sorter's provenance update; a transform whose
input references a missing collection that nothing produces instead
fails with `bundleHasCycle`. -/
theorem C10_theorem {xforms : List (TId × PTransform)} {id : TId}
    {tp : PTransform} {st : SortSt} {k : TId} {tk : PTransform} {c : CId}
    (hid : List.lookup id xforms = some tp) (hc : c ∈ outVals tp)
    (hk : (k, tk) ∈ xforms) (hkc : c ∈ inVals tk)
    (hnone : st.colls c = none) :
    drainOne xforms st id = .crash .nilDeref :=
  drainOne_missing_coll_crash hid hc hk hkc hnone

/-- C10 counterexample: a transform whose input references a collection
absent from the PCollections map, with no producer, yields the
structured `bundleHasCycle` error — not a panic. -/
theorem C10_counterexample :
    List.lookup "c" dMissInput.pcollections = none ∧
      topologicalSort dMissInput = .fail .bundleHasCycle :=
  ⟨rfl, rfl⟩

/-- C10 witness: the amended theorem applied to a produced-and-consumed
missing collection, plus the end-to-end crash of the whole sort. -/
theorem C10_witness :
    drainOne dMissBoth.transforms
      { adjs := initAdjs dMissBoth, colls := initColls dMissBoth,
        nextFrontier := [] } "a" = .crash .nilDeref ∧
      topologicalSort dMissBoth = .crash .nilDeref :=
  ⟨@C10_theorem dMissBoth.transforms "a"
      { spec := specX, outputs := [("o", "c")] }
      { adjs := initAdjs dMissBoth, colls := initColls dMissBoth,
        nextFrontier := [] }
      "b" { spec := specX, inputs := [("i", "c")] } "c"
      rfl (by decide) (by decide) (by decide) rfl,
   rfl⟩

end Beam
